import Mathlib

/-!
# Verification of the flashcards markup core (`src/markup.py`, `src/flashcards_lib/util.py`)

Shallow embedding of the markup/typesetting core of the `flashcards` repository:
the Unicode-classifier-driven line-break oracle, the tokenizer, the normalizer,
the `TextBox`/`TextGroup` geometry algebra, the function/macro registries and the
shunting-yard layout evaluator, together with theorems checking the specification's
claims against this embedding.

Python's calls into `unicodedata` (`category`, `east_asian_width`) are external
oracles; a character is therefore embedded as a `MChar`: the code point together
with the two oracle answers (its general category, restricted to the categories the
code ever tests, and whether its East-Asian width is Fullwidth/Wide).  Everything
else is computed, never assumed.  Python exceptions are embedded as explicit error
values (`PyErr`), and the thread-local state of `Macro.push_arg` / `fgcolor` is an
explicit `Tls` record threaded through the evaluator, so that cross-call state
retention is visible.
-/

set_option maxHeartbeats 1000000

namespace Flashcards

/-- Unicode general categories distinguished by the code
(`util.py` / `flashcards_lib/util.py` / `markup.py`).  All categories the code
never tests for are collapsed into `other`. -/
inductive UCat where
  | Zs | Pd | Ps | Pi | Pe | Pf | Pc | Po | Sk | other
deriving DecidableEq, Repr

/-- A source character together with the answers of the `unicodedata` oracles:
`cat` is `unicodedata.category c` (collapsed to the tested categories) and
`eawWide` is `unicodedata.east_asian_width c ∈ ('F', 'W')`. -/
structure MChar where
  c : Char
  cat : UCat
  eawWide : Bool
deriving DecidableEq, Repr

/-- A Python string: a list of classified characters. -/
abbrev Str := List MChar

/-- Underlying code points of a string (Python `str` equality compares these). -/
def Str.chars (s : Str) : List Char := s.map (·.c)

/-- `NO-BREAK SPACE` code point (U+00A0). -/
def nbspChar : Char := Char.ofNat 0xA0

/-- `ZERO WIDTH SPACE` code point (U+200B). -/
def zwspChar : Char := Char.ofNat 0x200B

/-- `NON-BREAKING HYPHEN` code point (U+2011). -/
def nbHyphenChar : Char := Char.ofNat 0x2011

/-- `flashcards_lib/util.py` `is_breaking_space`: category `Zs` excluding NBSP,
plus ZWSP. -/
def is_breaking_space (mc : MChar) : Bool :=
  (mc.cat = UCat.Zs && mc.c ≠ nbspChar) || mc.c = zwspChar

/-- `flashcards_lib/util.py` `is_breaking_hyphen`: category `Pd` excluding
NON-BREAKING HYPHEN. -/
def is_breaking_hyphen (mc : MChar) : Bool :=
  mc.cat = UCat.Pd && mc.c ≠ nbHyphenChar

/-- `is_inner_punctuation`: categories `Pc`, `Po`. -/
def is_inner_punctuation (mc : MChar) : Bool :=
  mc.cat = UCat.Pc || mc.cat = UCat.Po

/-- `is_starting_punctuation`: categories `Ps`, `Pi`. -/
def is_starting_punctuation (mc : MChar) : Bool :=
  mc.cat = UCat.Ps || mc.cat = UCat.Pi

/-- `is_ending_punctuation`: categories `Pd`, `Pe`, `Pf`. -/
def is_ending_punctuation (mc : MChar) : Bool :=
  mc.cat = UCat.Pd || mc.cat = UCat.Pe || mc.cat = UCat.Pf

/-- CJK-ideograph membership test of `line_break_opportunities`:
two fixed code-point ranges. -/
def is_cjk (mc : MChar) : Bool :=
  (Char.ofNat 0x3200 ≤ mc.c && mc.c ≤ Char.ofNat 0x9fff) ||
  (Char.ofNat 0x20000 ≤ mc.c && mc.c ≤ Char.ofNat 0x2ffff)

/-- Kana membership test of `line_break_opportunities`: one fixed range
(U+3040 – U+30FF). -/
def is_kana (mc : MChar) : Bool :=
  Char.ofNat 0x3040 ≤ mc.c && mc.c ≤ Char.ofNat 0x30ff

/-- Spacing-modifier test of `line_break_opportunities`: category `Sk`. -/
def is_modifier (mc : MChar) : Bool :=
  mc.cat = UCat.Sk

/-- `flashcards_lib/util.py` `char_width`: 0 for ZWSP, 2 for East-Asian
Fullwidth/Wide, else 1. -/
def char_width (mc : MChar) : Int :=
  if mc.c = zwspChar then 0 else if mc.eawWide then 2 else 1

/-- `unicode_width`: sum of `char_width` over the string. -/
def unicode_width (s : Str) : Int :=
  s.foldl (fun w c => w + char_width c) 0

/-!
## `StringMask`

`StringMask` is an integer bitmask indexed by string position; the code observes
it only through `__getitem__`.  It is embedded as its indicator function
`Nat → Bool`; each operator below is the pointwise image of the corresponding
Python integer-bitwise operator (`(a | b)[i] = a[i] or b[i]`, `(~a)[i] = not a[i]`,
and `(m << 1)[i] = m[i+1]` — `StringMask.__lshift__` shifts characters left,
i.e. the underlying bits right).
-/

/-- A `StringMask`, viewed through `__getitem__`. -/
abbrev Mask := Nat → Bool

/-- `StringMask.collect`: bit `i` is the `i`-th element of the generator,
false beyond its end. -/
def Mask.collect (p : MChar → Bool) (s : Str) : Mask :=
  fun i => match s.get? i with
    | some c => p c
    | none => false

/-- Pointwise `|`. -/
def Mask.or (a b : Mask) : Mask := fun i => a i || b i

/-- Pointwise `&`. -/
def Mask.and (a b : Mask) : Mask := fun i => a i && b i

/-- Pointwise `~`. -/
def Mask.inv (a : Mask) : Mask := fun i => !a i

/-- `StringMask.__lshift__ 1` (shift characters left: bit `i` reads old bit `i+1`). -/
def Mask.shl1 (a : Mask) : Mask := fun i => a (i + 1)

/-- `flashcards_lib/util.py` `line_break_opportunities`, built mask by mask in
source order: trigger masks (breaking spaces/hyphens, CJK both sides, kana both
sides) minus the punctuation/modifier suppressions. -/
def line_break_opportunities (s : Str) : Mask :=
  let breaking_spaces := Mask.collect is_breaking_space s
  let breaking_hyphens := Mask.collect is_breaking_hyphen s
  let cjk_ideograms := Mask.collect is_cjk s
  let kana := Mask.collect is_kana s
  let punctuation_inner := Mask.collect is_inner_punctuation s
  let punctuation_before := Mask.collect is_starting_punctuation s
  let punctuation_after := Mask.collect is_ending_punctuation s
  let modifier := Mask.collect is_modifier s
  let m := breaking_spaces
  let m := m.or breaking_hyphens
  let m := m.or cjk_ideograms
  let m := m.or cjk_ideograms.shl1
  let m := m.or kana
  let m := m.or kana.shl1
  let m := m.and punctuation_inner.inv
  let m := m.and punctuation_inner.shl1.inv
  let m := m.and punctuation_before.inv
  let m := m.and punctuation_after.shl1.inv
  let m := m.and modifier.shl1.inv
  m

/-- The markup syntax delimiters of `markup.py` `token_boundaries`. -/
def is_syntax_delim (mc : MChar) : Bool :=
  mc.c = '\\' || mc.c = '{' || mc.c = '}' || mc.c = '^' || mc.c = '_'

/-- `markup.py` `token_boundaries`: line-break opportunities plus syntax/punctuation
delimiters (breaks after and before each delimiter), minus positions of `#`. -/
def token_boundaries (s : Str) : Mask :=
  let delim := Mask.collect
    (fun mc => is_syntax_delim mc || is_breaking_space mc ||
      is_inner_punctuation mc || is_starting_punctuation mc ||
      is_ending_punctuation mc) s
  let number_sign := Mask.collect (fun mc => mc.c = '#') s
  ((line_break_opportunities s).or (delim.or delim.shl1)).and number_sign.inv

/-!
## Tokens and the tokenizer (`markup.py` lines 25–84)
-/

/-- The closed set of lexical token types (`Token.Type` instances of `markup.py`). -/
inductive TokType where
  | literal | escape | space | infixTok | functionTok | macroTok | lbracket | rbracket
deriving DecidableEq, Repr

/-- `markup.py` `Token`: type, optional scope tag, optional source range
(`None` for synthesized tokens), text. -/
structure Token where
  type : TokType
  scope : Option String
  range : Option (Nat × Nat)
  value : Str
deriving DecidableEq, Repr

/-- `Token.with_type`. -/
def Token.with_type (t : Token) (ty : TokType) : Token :=
  { t with type := ty }

/-- The loop of `tokenize`, walking the remaining characters `rest` while
carrying the current run `run = s[i:j]` (so `j = i + run.length`).  At a break
position `j` it emits `Token(LITERAL, scope, (i, j), s[i:j+1])`; after the loop
(`j = len s`) a non-empty pending run is emitted as `Token(LITERAL, scope, (i, j), s[i:])`. -/
def tokenizeAux (scope : Option String) (breaks : Mask) :
    List MChar → Str → Nat → Nat → List Token
  | [], run, i, j =>
      if run.isEmpty then [] else [⟨TokType.literal, scope, some (i, j), run⟩]
  | c :: rest, run, i, j =>
      if breaks j then
        ⟨TokType.literal, scope, some (i, j), run ++ [c]⟩ ::
          tokenizeAux scope breaks rest [] (j + 1) (j + 1)
      else
        tokenizeAux scope breaks rest (run ++ [c]) i (j + 1)

/-- `markup.py` `tokenize`: split `s` into literal runs at the positions approved
by `token_boundaries s`. -/
def tokenize (s : Str) (scope : Option String := none) : List Token :=
  tokenizeAux scope (token_boundaries s) s [] 0 0

/-- Concatenation of all token values. -/
def joinValues (ts : List Token) : Str :=
  ts.foldr (fun t acc => t.value ++ acc) []

/-- Specification of the tokenizer output starting at source position `p`
(the amended partition claim): every token is a literal with a non-empty value
equal to the source slice it covers, the half-open value spans tile `[p, len s)`
in order, every split between consecutive tokens sits at a position approved by
`breaks`, and the `range` field is `(start, end-1)` (inclusive end) for tokens
emitted at a break but `(start, len s)` (exclusive end) for a trailing partial
run emitted after the loop. -/
def tokenizeSpec (s : Str) (breaks : Mask) : Nat → List Token → Prop
  | p, [] => p = s.length
  | p, [t] =>
      t.type = TokType.literal ∧ t.value ≠ [] ∧
      t.value = (s.drop p).take t.value.length ∧
      p + t.value.length = s.length ∧
      ((breaks (p + t.value.length - 1) = true ∧
          t.range = some (p, p + t.value.length - 1)) ∨
        t.range = some (p, s.length))
  | p, t :: t' :: rest =>
      t.type = TokType.literal ∧ t.value ≠ [] ∧
      t.value = (s.drop p).take t.value.length ∧
      breaks (p + t.value.length - 1) = true ∧
      t.range = some (p, p + t.value.length - 1) ∧
      tokenizeSpec s breaks (p + t.value.length) (t' :: rest)

theorem tokenizeSpec_cons (s : Str) (breaks : Mask) (p : Nat) (t : Token)
    (rest : List Token)
    (h1 : t.type = TokType.literal) (h2 : t.value ≠ [])
    (h3 : t.value = (s.drop p).take t.value.length)
    (h4 : breaks (p + t.value.length - 1) = true)
    (h5 : t.range = some (p, p + t.value.length - 1))
    (h6 : tokenizeSpec s breaks (p + t.value.length) rest) :
    tokenizeSpec s breaks p (t :: rest) := by
  cases rest with
  | nil =>
      unfold tokenizeSpec at h6 ⊢
      exact ⟨h1, h2, h3, h6, Or.inl ⟨h4, h5⟩⟩
  | cons a b =>
      unfold tokenizeSpec
      exact ⟨h1, h2, h3, h4, h5, h6⟩

theorem tokenizeAux_spec (s : Str) (scope : Option String) (breaks : Mask) :
    ∀ (rest run : Str) (i : Nat), i ≤ s.length → run ++ rest = s.drop i →
      tokenizeSpec s breaks i
        (tokenizeAux scope breaks rest run i (i + run.length)) := by
  intro rest
  induction rest with
  | nil =>
      intro run i hi h
      rw [List.append_nil] at h
      have hlen : run.length = s.length - i := by
        rw [h, List.length_drop]
      have hil : i + run.length = s.length := by omega
      rw [tokenizeAux]
      by_cases hrun : run.isEmpty
      · simp only [hrun, if_true]
        have hre : run = [] := List.isEmpty_iff.mp hrun
        unfold tokenizeSpec
        rw [hre] at hil
        simpa using hil
      · simp only [hrun, if_false, Bool.false_eq_true]
        unfold tokenizeSpec
        refine ⟨rfl, ?_, ?_, hil, ?_⟩
        · intro hc
          exact hrun (List.isEmpty_iff.mpr hc)
        · show run = (s.drop i).take run.length
          rw [h]
          exact (List.take_length _).symm
        · right
          show some (i, i + run.length) = some (i, s.length)
          rw [hil]
  | cons c rest ih =>
      intro run i hi h
      have hdropi : s.drop i = run ++ c :: rest := h.symm
      have hdropj : s.drop (i + run.length) = c :: rest := by
        rw [← List.drop_drop, hdropi, List.drop_left]
      have hjlt : i + run.length < s.length := by
        by_contra hge
        have hnil : s.drop (i + run.length) = [] :=
          List.drop_eq_nil_of_le (by omega)
        rw [hdropj] at hnil
        exact List.cons_ne_nil _ _ hnil
      rw [tokenizeAux]
      by_cases hb : breaks (i + run.length)
      · simp only [hb, if_true]
        have hrec := ih [] (i + run.length + 1) (by omega)
          (by
            simp only [List.nil_append]
            rw [← List.drop_drop, hdropj]
            rfl)
        simp only [List.length_nil, Nat.add_zero] at hrec
        have hlen1 : (run ++ [c]).length = run.length + 1 := by simp
        have hsucc : i + (run ++ [c]).length = i + run.length + 1 := by
          rw [hlen1]
          omega
        have hpred : i + (run ++ [c]).length - 1 = i + run.length := by
          rw [hlen1]
          omega
        apply tokenizeSpec_cons
        · rfl
        · simp
        · show run ++ [c] = (s.drop i).take (run ++ [c]).length
          have hsplit : run ++ c :: rest = (run ++ [c]) ++ rest := by simp
          rw [hdropi, hsplit, List.take_left]
        · show breaks (i + (run ++ [c]).length - 1) = true
          rw [hpred]; exact hb
        · show some (i, i + run.length) = some (i, i + (run ++ [c]).length - 1)
          rw [hpred]
        · show tokenizeSpec s breaks (i + (run ++ [c]).length)
            (tokenizeAux scope breaks rest [] (i + run.length + 1)
              (i + run.length + 1))
          rw [hsucc]
          exact hrec
      · simp only [hb, if_false, Bool.false_eq_true]
        have hrec := ih (run ++ [c]) i hi
          (by rw [List.append_assoc]; simpa using h)
        have hsucc : i + (run ++ [c]).length = i + run.length + 1 := by
          simp
          omega
        rw [hsucc] at hrec
        exact hrec

/-- `tokenizeSpec` implies that concatenating the values recovers the source
suffix. -/
theorem tokenizeSpec_join (s : Str) (breaks : Mask) :
    ∀ (ts : List Token) (p : Nat), tokenizeSpec s breaks p ts →
      joinValues ts = s.drop p := by
  intro ts
  induction ts with
  | nil =>
      intro p h
      unfold tokenizeSpec at h
      rw [joinValues]
      simp [List.drop_eq_nil_of_le, h.ge]
  | cons t rest ih =>
      intro p h
      have hval : t.value = (s.drop p).take t.value.length := by
        cases rest with
        | nil => exact h.2.2.1
        | cons a b => exact h.2.2.1
      have hrest : joinValues rest = s.drop (p + t.value.length) := by
        cases rest with
        | nil =>
            have hlen : p + t.value.length = s.length := h.2.2.2.1
            rw [joinValues]
            simp [List.drop_eq_nil_of_le, hlen.ge]
        | cons a b => exact ih _ h.2.2.2.2.2
      have hjoin : joinValues (t :: rest) = t.value ++ joinValues rest := by
        cases rest <;> rfl
      rw [hjoin, hrest, ← List.drop_drop]
      nth_rewrite 1 [hval]
      exact List.take_append_drop _ _

/-- Checker for "the `range` fields exactly tile `[0, n)` in order, no gaps, no
overlaps" when a range pair `(a, b)` is read as the half-open interval `[a, b)`. -/
def rangesTileHalfOpen (n : Nat) : Nat → List Token → Bool
  | p, [] => p = n
  | p, t :: rest =>
      match t.range with
      | some (a, b) => a = p && a ≤ b && rangesTileHalfOpen n b rest
      | none => false

/-- Checker for the same tiling property when a range pair `(a, b)` is read as
the inclusive interval `[a, b]`. -/
def rangesTileInclusive (n : Nat) : Nat → List Token → Bool
  | p, [] => p = n
  | p, t :: rest =>
      match t.range with
      | some (a, b) => a = p && a ≤ b && rangesTileInclusive n (b + 1) rest
      | none => false

/-- The classified string `" b"` (SPACE `Zs`, `b` lowercase letter). -/
def strSpaceB : Str := [⟨' ', UCat.Zs, false⟩, ⟨'b', UCat.other, false⟩]

/-- C2 counterexample: for `s = " b"`, `tokenize` yields tokens with range
fields `(0, 0)` (the space, emitted at a break, inclusive end) and `(1, 2)`
(the trailing run `"b"`, exclusive end).  Under neither a uniformly half-open
nor a uniformly inclusive reading do these range fields tile `[0, 2)`: the
emitted range convention is mixed, so the claim's "ranges exactly tile
`[0, len(s))`" is false as stated (the value spans do tile, see
`tokenize_partition`). -/
theorem tokenize_ranges_mixed_convention :
    (tokenize strSpaceB).map (·.range) = [some (0, 0), some (1, 2)] ∧
    rangesTileHalfOpen strSpaceB.length 0 (tokenize strSpaceB) = false ∧
    rangesTileInclusive strSpaceB.length 0 (tokenize strSpaceB) = false := by
  refine ⟨?_, ?_, ?_⟩ <;> rfl

/-- C2 (amended): for every classified source string `s`, `tokenize s` yields
only literal-type tokens whose non-empty values are the corresponding source
slices; their half-open spans `[start, start + len(value))` tile `[0, len s)`
in order with no gaps or overlaps; every split between consecutive tokens is at
a position approved by the break oracle `token_boundaries s`; a trailing
partial run with no break is still emitted; and the concatenation of all token
values equals `s`.  The `range` field has inclusive end for break-emitted
tokens and exclusive end for the trailing run (`tokenizeSpec`). -/
theorem tokenize_partition (s : Str) :
    tokenizeSpec s (token_boundaries s) 0 (tokenize s) ∧
    joinValues (tokenize s) = s := by
  have h := tokenizeAux_spec s none (token_boundaries s) s [] 0 (Nat.zero_le _)
    (by simp)
  simp only [List.length_nil, Nat.add_zero] at h
  refine ⟨h, ?_⟩
  have hj := tokenizeSpec_join s (token_boundaries s) (tokenize s) 0 h
  simpa using hj

/-!
## C6: the pointwise reading of `line_break_opportunities`
-/

/-- The break condition exactly as the claim words it: the character at `i` is
a breaking space, breaking hyphen, CJK ideograph, or kana (with CJK and kana
also permitting a break after the immediately preceding character), and the
break is not suppressed by inner punctuation at or immediately after `i`,
leading (starting) punctuation immediately following, trailing (ending)
punctuation immediately preceding, or a spacing-modifier character immediately
following. -/
def claimBreakAfter (s : Str) (i : Nat) : Bool :=
  (Mask.collect is_breaking_space s i || Mask.collect is_breaking_hyphen s i ||
    Mask.collect is_cjk s i || Mask.collect is_kana s i ||
    Mask.collect is_cjk s (i + 1) || Mask.collect is_kana s (i + 1)) &&
  !(Mask.collect is_inner_punctuation s i ||
    Mask.collect is_inner_punctuation s (i + 1) ||
    Mask.collect is_starting_punctuation s (i + 1) ||
    Mask.collect is_ending_punctuation s i ||
    Mask.collect is_modifier s (i + 1))

/-- The amended break condition: as `claimBreakAfter` but with the punctuation
sides matching the code — starting punctuation suppresses at `i` (the character
before the break), ending punctuation suppresses at `i + 1` (the character
after the break). -/
def amendedBreakAfter (s : Str) (i : Nat) : Bool :=
  (Mask.collect is_breaking_space s i || Mask.collect is_breaking_hyphen s i ||
    Mask.collect is_cjk s i || Mask.collect is_kana s i ||
    Mask.collect is_cjk s (i + 1) || Mask.collect is_kana s (i + 1)) &&
  !(Mask.collect is_inner_punctuation s i ||
    Mask.collect is_inner_punctuation s (i + 1) ||
    Mask.collect is_starting_punctuation s i ||
    Mask.collect is_ending_punctuation s (i + 1) ||
    Mask.collect is_modifier s (i + 1))

/-- The classified string `"あ("`: HIRAGANA LETTER A (kana, category `Lo`,
wide) followed by LEFT PARENTHESIS (category `Ps`). -/
def strKanaParen : Str := [⟨'あ', UCat.other, true⟩, ⟨'(', UCat.Ps, false⟩]

/-- C6 counterexample: on `"あ("` the code permits a break after position 0
(the kana triggers it and no code-side suppression applies — `(` is starting
punctuation at `i + 1`, which the code does not consult), while the claim's
wording suppresses it ("leading punctuation immediately following").  So the
claim's iff is false at `s = "あ("`, `i = 0`. -/
theorem line_break_claim_counterexample :
    line_break_opportunities strKanaParen 0 = true ∧
    claimBreakAfter strKanaParen 0 = false := by
  exact ⟨rfl, rfl⟩

/-- C6 (amended): `line_break_opportunities` permits a break after `i` iff the
trigger condition holds and none of the code's suppressions applies: inner
punctuation at `i` or `i + 1`, starting punctuation at `i` (immediately
preceding the break), ending punctuation at `i + 1` (immediately following),
or a spacing modifier at `i + 1`. -/
theorem line_break_opportunities_iff (s : Str) (i : Nat) :
    line_break_opportunities s i = amendedBreakAfter s i := by
  simp only [line_break_opportunities, amendedBreakAfter, Mask.or, Mask.and,
    Mask.inv, Mask.shl1]
  generalize Mask.collect is_breaking_space s i = a1
  generalize Mask.collect is_breaking_hyphen s i = a2
  generalize Mask.collect is_cjk s i = a3
  generalize Mask.collect is_cjk s (i + 1) = a4
  generalize Mask.collect is_kana s i = a5
  generalize Mask.collect is_kana s (i + 1) = a6
  generalize Mask.collect is_inner_punctuation s i = a7
  generalize Mask.collect is_inner_punctuation s (i + 1) = a8
  generalize Mask.collect is_starting_punctuation s i = a9
  generalize Mask.collect is_ending_punctuation s (i + 1) = a10
  generalize Mask.collect is_modifier s (i + 1) = a11
  revert a1 a2 a3 a4 a5 a6 a7 a8 a9 a10 a11
  decide

/-!
## Geometry algebra (`markup.py` lines 162–292)

Coordinates are Python ints, embedded as `Int`.  `Text.text` is `Option Str`
because the evaluator can store Python `None` in it: `fgcolor` builds
`Text.from_str(state[-1])` where `state[-1]` may be `None` (see C5).
-/

/-- `markup.py` `Text`: placement of one literal run. -/
structure Text where
  x : Int
  y : Int
  text : Option Str
deriving DecidableEq, Repr

/-- `Text.from_str`. -/
def Text.from_str (t : Option Str) : Text := ⟨0, 0, t⟩

/-- `markup.py` `TextBox`. -/
structure TextBox where
  width : Int
  height : Int
  baseline : Int
deriving DecidableEq, Repr

/-- `TextBox.from_str`: width of the text, height 1, baseline 0. -/
def TextBox.from_str (s : Str) : TextBox := ⟨unicode_width s, 1, 0⟩

/-- `TextBox.empty`. -/
def TextBox.empty : TextBox := ⟨0, 0, 0⟩

/-- `markup.py` `TextGroup`. -/
structure TextGroup where
  box : TextBox
  items : List Text
deriving DecidableEq, Repr

/-- `TextGroup.concat` with all three optional arguments explicit
(`none` = Python's default `None`): offsets defaulted from the receiver's box,
union bounding box, origin renormalised to `(0, 0)`. -/
def TextGroup.concat (g other : TextGroup) (x_offset? y_offset? baseline? :
    Option Int := none) : TextGroup :=
  let x_offset := x_offset?.getD g.box.width
  let y_offset := y_offset?.getD (g.box.baseline - other.box.baseline)
  let x0 := min 0 x_offset
  let x1 := max g.box.width (other.box.width + x_offset)
  let y0 := min 0 y_offset
  let y1 := max g.box.height (other.box.height + y_offset)
  let baseline := baseline?.getD (g.box.baseline - y0)
  { box := ⟨x1 - x0, y1 - y0, baseline⟩
    items :=
      g.items.map (fun it => ⟨it.x - x0, it.y - y0, it.text⟩) ++
      other.items.map (fun it => ⟨it.x + x_offset - x0, it.y + y_offset - y0, it.text⟩) }

/-- `TextGroup.from_str`. -/
def TextGroup.from_str (s : Str) : TextGroup :=
  ⟨TextBox.from_str s, [Text.from_str (some s)]⟩

/-- `TextGroup.empty`. -/
def TextGroup.empty : TextGroup := ⟨TextBox.empty, []⟩

/-!
## C7: `concat` with the empty group
-/

/-- C7 counterexample: `concat` does not preserve an arbitrary `TextGroup`.
For `A` with box width `-2` (the `TextBox` constructor accepts any ints),
`concat(A, empty)` renormalises the box to width 0, so "same box width" fails.
The claim is therefore false over *every* TextGroup; it holds for the
well-formed ones the program constructs (see `concat_empty_amended`). -/
theorem concat_empty_counterexample :
    (TextGroup.concat ⟨⟨-2, 1, 0⟩, []⟩ TextGroup.empty).box.width ≠
      (TextGroup.mk ⟨-2, 1, 0⟩ []).box.width := by
  decide

/-- Well-formedness invariant maintained by the program's `TextGroup`
constructors: nonnegative width and a baseline between 0 and the height. -/
def TextGroup.wf (g : TextGroup) : Prop :=
  0 ≤ g.box.width ∧ 0 ≤ g.box.baseline ∧ g.box.baseline ≤ g.box.height

/-- C7 (amended): for well-formed `A` and `B` (as all program-constructed
groups are), `concat(A, empty)` equals `A` and `concat(empty, B)` equals `B` —
not just up to origin normalisation but on the nose: same box width, height
and baseline, and the same item texts at the same positions. -/
theorem concat_empty_amended (A B : TextGroup) (hA : A.wf) (hB : B.wf) :
    TextGroup.concat A TextGroup.empty = A ∧
    TextGroup.concat TextGroup.empty B = B := by
  obtain ⟨hAw, hAb0, hAbh⟩ := hA
  obtain ⟨hBw, hBb0, hBbh⟩ := hB
  constructor
  · show TextGroup.mk _ _ = A
    cases A with
    | mk box items =>
        cases box with
        | mk w h b =>
            simp only [TextGroup.concat, TextGroup.empty, TextBox.empty,
              Option.getD] at *
            congr 1
            · congr 1 <;> simp <;> omega
            · simp only [List.map_nil, List.append_nil]
              have : ∀ it : Text,
                  (⟨it.x - min 0 w, it.y - min 0 (b - 0), it.text⟩ : Text) = it := by
                intro it
                have h1 : min 0 w = 0 := by omega
                have h2 : min 0 (b - 0) = 0 := by omega
                rw [h1, h2]
                simp
              simp only [this, List.map_id']
  · show TextGroup.mk _ _ = B
    cases B with
    | mk box items =>
        cases box with
        | mk w h b =>
            simp only [TextGroup.concat, TextGroup.empty, TextBox.empty,
              Option.getD] at *
            congr 1
            · congr 1 <;> simp <;> omega
            · simp only [List.map_nil, List.nil_append]
              have : ∀ it : Text,
                  (⟨it.x + 0 - min 0 0, it.y + (0 - b) - min 0 (0 - b), it.text⟩ :
                    Text) = it := by
                intro it
                have h1 : min 0 (0 - b) = 0 - b := by omega
                simp only [h1]
                congr 1 <;> omega
              simp only [this, List.map_id']

/-- Concrete witness for `concat_empty_amended` at `A = B = from_str "a"`. -/
theorem concat_empty_amended_witness :
    TextGroup.concat (TextGroup.from_str [⟨'a', UCat.other, false⟩])
        TextGroup.empty = TextGroup.from_str [⟨'a', UCat.other, false⟩] ∧
    TextGroup.concat TextGroup.empty
        (TextGroup.from_str [⟨'a', UCat.other, false⟩]) =
      TextGroup.from_str [⟨'a', UCat.other, false⟩] :=
  concat_empty_amended _ _ (by constructor <;> decide) (by constructor <;> decide)

/-!
## Registries: infix operators, functions, macros (`markup.py` lines 294–495)
-/

deriving instance DecidableEq for Except

/-- Python exceptions that can escape the evaluator, plus `fuelOut` marking
recursion-budget exhaustion of the embedding (Python's analogue is
`RecursionError` on unboundedly self-expanding macros). -/
inductive PyErr where
  | assertError | indexError | attrError | keyError | fuelOut
deriving DecidableEq, Repr

/-- Is the character Python whitespace for `str.strip()` (space separators and
the ASCII whitespace controls)? -/
def isPySpaceChar (mc : MChar) : Bool :=
  mc.cat = UCat.Zs || mc.c = ' ' || mc.c = '\t' || mc.c = '\n' || mc.c = '\r' ||
    mc.c = Char.ofNat 0x0b || mc.c = Char.ofNat 0x0c

/-- Python `str.strip()`. -/
def pyStrip (s : Str) : Str :=
  ((s.dropWhile isPySpaceChar).reverse.dropWhile isPySpaceChar).reverse

/-- Python `str.lower()` (ASCII-level, enough for the color names compared). -/
def pyLower (s : Str) : Str :=
  s.map (fun mc => { mc with c := mc.c.toLower })

/-- Double underscore occurs somewhere in the character list. -/
def hasDoubleUnderscore : List Char → Bool
  | c1 :: c2 :: rest => (c1 = '_' && c2 = '_') || hasDoubleUnderscore (c2 :: rest)
  | _ => false

/-- Digit-run parser for Python `int()`: non-empty digits with single
underscores allowed between digits. -/
def natOfDigits (cs : List Char) : Option Nat :=
  if cs ≠ [] && cs.all (fun c => c.isDigit || c = '_') &&
      cs.head? ≠ some '_' && cs.getLast? ≠ some '_' && !hasDoubleUnderscore cs
  then some ((cs.filter (· ≠ '_')).foldl (fun n c => 10 * n + (c.toNat - 48)) 0)
  else none

/-- Python `int(str)`: optional surrounding whitespace, optional sign, digit
run with optional single underscores. -/
def pyInt (s : Str) : Option Int :=
  match (pyStrip s).chars with
  | '+' :: rest => (natOfDigits rest).map Int.ofNat
  | '-' :: rest => (natOfDigits rest).map (fun n => -(n : Int))
  | rest => (natOfDigits rest).map Int.ofNat

/-- `Macro.match_group`: a literal token `#<int>` whose 1-based index parses
and is positive yields the 0-based placeholder index. -/
def match_group (t : Token) : Option Nat :=
  if t.type ≠ TokType.literal then none
  else if t.value.length < 2 then none
  else if t.value.chars.head? ≠ some '#' then none
  else match pyInt (t.value.drop 1) with
    | none => none
    | some n => if 0 ≤ n - 1 then some (n - 1).toNat else none

/-- A registered macro: identifier-independent data `{arity, body tokens}`. -/
structure MacroDef where
  argn : Nat
  tokens : List Token
deriving DecidableEq, Repr

/-- The process-wide registries.  `functions` lists the registered function
identifiers — the source registers exactly one function implementation
(`fgcolor`), so a function lookup resolves to the fgcolor protocol.
`macros` maps identifiers to `MacroDef`s. -/
structure Reg where
  functions : List (List Char)
  macros : List (List Char × MacroDef)
deriving Repr

/-- `token.value in Function.lookup`. -/
def Reg.isFunction (reg : Reg) (v : Str) : Bool :=
  reg.functions.any (fun n => n = v.chars)

/-- `Macro.lookup[token.value]`. -/
def Reg.lookupMacro (reg : Reg) (v : Str) : Option MacroDef :=
  (reg.macros.find? (fun p => p.1 = v.chars)).map (·.2)

/-- `token.value in Macro.lookup`. -/
def Reg.isMacro (reg : Reg) (v : Str) : Bool :=
  (reg.lookupMacro v).isSome

/-!
## ANSI escapes and `fgcolor` (`markup.py` lines 392–440, `ansi_esc.py`)
-/

/-- Unicode category of the ASCII characters appearing in ANSI escapes and
color names (only `[` and `;` fall outside `other`). -/
def asciiCat (ch : Char) : UCat :=
  if ch = '[' then UCat.Ps else if ch = ';' then UCat.Po else UCat.other

/-- Build a classified string from an ASCII Lean string. -/
def pyS (s : String) : Str :=
  s.data.map (fun ch => ⟨ch, asciiCat ch, false⟩)

/-- `ansi_esc.py` `ANSI_RED`. -/
def ANSI_RED : Str := pyS "\x1b[31m"

/-- `ansi_esc.py` `ANSI_GREEN`. -/
def ANSI_GREEN : Str := pyS "\x1b[32m"

/-- `ansi_esc.py` `ANSI_CYAN`. -/
def ANSI_CYAN : Str := pyS "\x1b[36m"

/-- `ansi_esc.py` `ANSI_WHITE`. -/
def ANSI_WHITE : Str := pyS "\x1b[37m"

/-- Modelled from the spec: `ansi_esc.py` under `src/` is from an older
revision and lacks the constants below that `markup.py` imports
(`ANSI_BLACK`, `ANSI_YELLOW`, `ANSI_BLUE`, `ANSI_MAGENTA`, the bright
variants and `ANSI_DEFAULT`); they are the standard SGR foreground escapes
the fixed name→escape table of the spec (§4.5) refers to.  No claim depends
on their exact byte values — they are opaque tokens to the evaluator. -/
def ANSI_BLACK : Str := pyS "\x1b[30m"

/-- Modelled from the spec (see `ANSI_BLACK`). -/
def ANSI_YELLOW : Str := pyS "\x1b[33m"

/-- Modelled from the spec (see `ANSI_BLACK`). -/
def ANSI_BLUE : Str := pyS "\x1b[34m"

/-- Modelled from the spec (see `ANSI_BLACK`). -/
def ANSI_MAGENTA : Str := pyS "\x1b[35m"

/-- Modelled from the spec (see `ANSI_BLACK`). -/
def ANSI_BRIGHT_BLACK : Str := pyS "\x1b[90m"

/-- Modelled from the spec (see `ANSI_BLACK`). -/
def ANSI_BRIGHT_RED : Str := pyS "\x1b[91m"

/-- Modelled from the spec (see `ANSI_BLACK`). -/
def ANSI_BRIGHT_GREEN : Str := pyS "\x1b[92m"

/-- Modelled from the spec (see `ANSI_BLACK`). -/
def ANSI_BRIGHT_YELLOW : Str := pyS "\x1b[93m"

/-- Modelled from the spec (see `ANSI_BLACK`). -/
def ANSI_BRIGHT_BLUE : Str := pyS "\x1b[94m"

/-- Modelled from the spec (see `ANSI_BLACK`). -/
def ANSI_BRIGHT_MAGENTA : Str := pyS "\x1b[95m"

/-- Modelled from the spec (see `ANSI_BLACK`). -/
def ANSI_BRIGHT_CYAN : Str := pyS "\x1b[96m"

/-- Modelled from the spec (see `ANSI_BLACK`). -/
def ANSI_BRIGHT_WHITE : Str := pyS "\x1b[97m"

/-- Modelled from the spec (see `ANSI_BLACK`): the default-foreground escape
used as the sentinel bottom of the `fgcolor` stack. -/
def ANSI_DEFAULT : Str := pyS "\x1b[39m"

/-- `markup.py` `FG_COLORS`: the fixed name→escape table. -/
def FG_COLORS : List (List Char × Str) :=
  [("black".data, ANSI_BLACK),
   ("red".data, ANSI_RED),
   ("green".data, ANSI_GREEN),
   ("yellow".data, ANSI_YELLOW),
   ("blue".data, ANSI_BLUE),
   ("magenta".data, ANSI_MAGENTA),
   ("cyan".data, ANSI_CYAN),
   ("lightgray".data, ANSI_WHITE),
   ("lightgrey".data, ANSI_WHITE),
   ("darkgray".data, ANSI_BRIGHT_BLACK),
   ("darkgrey".data, ANSI_BRIGHT_BLACK),
   ("brightred".data, ANSI_BRIGHT_RED),
   ("brightgreen".data, ANSI_BRIGHT_GREEN),
   ("brightyellow".data, ANSI_BRIGHT_YELLOW),
   ("brightblue".data, ANSI_BRIGHT_BLUE),
   ("brightmagenta".data, ANSI_BRIGHT_MAGENTA),
   ("brightcyan".data, ANSI_BRIGHT_CYAN),
   ("white".data, ANSI_BRIGHT_WHITE)]

/-- `fgcolor`'s thread-local color stack; the list head is Python's
`state[-1]` (push/pop happen at Python's list end). -/
abbrev FState := List (Option Str)

/-- First color resolved from the argument's items (`fgcolor` phase 1 scan):
`item.text.strip().lower()` looked up in `FG_COLORS`; an item whose `text`
is Python `None` raises `AttributeError`. -/
def findColor : List Text → Except PyErr (Option Str)
  | [] => .ok none
  | it :: rest =>
      match it.text with
      | none => .error PyErr.attrError
      | some txt =>
          match FG_COLORS.find? (fun p => p.1 = (pyLower (pyStrip txt)).chars) with
          | some p => .ok (some p.2)
          | none => findColor rest

/-- `fgcolor` `push_arg`: returns the new state, the diagnostics, the optional
result, and the optional exception (state mutations before the exception are
kept, as in Python). -/
def fgcolorPush (state : FState) (arg : Option TextGroup) :
    FState × List String × Option TextGroup × Option PyErr :=
  match arg with
  | none => (none :: state, [], none, none)
  | some a =>
      match state with
      | [] => (state, [], none, some PyErr.indexError)
      | top :: rest =>
          match top with
          | none =>
              match findColor a.items with
              | .error e => (state, [], none, some e)
              | .ok (some col) => (some col :: rest, [], none, none)
              | .ok none =>
                  (some ANSI_DEFAULT :: rest, ["failed to get color"], none, none)
          | some pre =>
              match rest with
              | [] => (rest, [], none, some PyErr.indexError)
              | sfx :: _ =>
                  (rest, [],
                    some ⟨a.box,
                      Text.from_str (some pre) :: a.items ++ [Text.from_str sfx]⟩,
                    none)

/-- `Macro.push_arg`'s thread-local argument-group stack; head = Python
`state[-1]`. -/
abbrev MState := List (List TextGroup)

/-- The token-wise substitution of `Macro.push_arg` (`process_token` mapped
over the body): placeholders with index `> argn` pass through unchanged,
in-range placeholders are replaced by the evaluated argument, an out-of-range
index raises `IndexError`; the per-token `assert len(args) == argn` is kept. -/
def macroSubst (argn : Nat) (args : List TextGroup) :
    List Token → Except PyErr (List (Token ⊕ TextGroup))
  | [] => .ok []
  | t :: rest =>
      if args.length ≠ argn then .error PyErr.assertError
      else
        match match_group t with
        | none => (macroSubst argn args rest).map (Sum.inl t :: ·)
        | some g =>
            if g > argn then (macroSubst argn args rest).map (Sum.inl t :: ·)
            else
              match args.get? g with
              | some a => (macroSubst argn args rest).map (Sum.inr a :: ·)
              | none => .error PyErr.indexError

/-- `Macro.push_arg` without the re-emission (which the evaluator performs):
`None` opens a fresh group, an argument joins the newest group; once the
newest group reaches the arity it is popped and substituted into the body. -/
def macroPush (md : MacroDef) (state : MState) (arg : Option TextGroup) :
    MState × Option (List (Token ⊕ TextGroup)) × Option PyErr :=
  let pushed : MState × Option PyErr :=
    match arg with
    | none => ([] :: state, none)
    | some a =>
        match state with
        | [] => (state, some PyErr.indexError)
        | g :: rest => ((g ++ [a]) :: rest, none)
  match pushed with
  | (st', some e) => (st', none, some e)
  | (st', none) =>
      match st' with
      | [] => (st', none, some PyErr.indexError)
      | top :: rest =>
          if top.length < md.argn then (st', none, none)
          else
            match macroSubst md.argn top md.tokens with
            | .error e => (rest, none, some e)
            | .ok items => (rest, some items, none)

/-!
## Infix operators (`markup.py` lines 442–494)
-/

/-- `InfixOperator.Associativity`. -/
inductive Assoc where
  | left | right
deriving DecidableEq, Repr

/-- A registered infix operator. -/
structure InfixOp where
  precedence : Int
  assoc : Assoc
  eval : TextGroup → TextGroup → TextGroup

/-- `infix_text_over` (the `^` operator): centre the narrower operand over the
wider one and place the right operand `lhs.height` rows up. -/
def infix_text_over (lhs rhs : TextGroup) : TextGroup :=
  let width := max lhs.box.width rhs.box.width
  let lhs_pad := (width - lhs.box.width).fdiv 2
  let rhs_pad := (width - rhs.box.width).fdiv 2
  lhs.concat rhs (some (rhs_pad - lhs_pad)) (some lhs.box.height) none

/-- `infix_text_under` (the `_` operator): mirror of `infix_text_over`,
placing the right operand `rhs.height` rows down. -/
def infix_text_under (lhs rhs : TextGroup) : TextGroup :=
  let width := max lhs.box.width rhs.box.width
  let lhs_pad := (width - lhs.box.width).fdiv 2
  let rhs_pad := (width - rhs.box.width).fdiv 2
  lhs.concat rhs (some (rhs_pad - lhs_pad)) (some (-rhs.box.height)) none

/-- `InfixOperator.lookup`: the two build-time registrations `^` and `_`,
both precedence 10, left-associative. -/
def infixLookup (v : Str) : Option InfixOp :=
  if v.chars = ['^'] then some ⟨10, Assoc.left, infix_text_over⟩
  else if v.chars = ['_'] then some ⟨10, Assoc.left, infix_text_under⟩
  else none

/-!
## The normalizer (`markup.py` lines 86–160)
-/

/-- `VALUE_LIKE = (LITERAL, FUNCTION, MACRO, RBRACKET)`. -/
def isValueLike : TokType → Bool
  | TokType.literal | TokType.functionTok | TokType.macroTok
  | TokType.rbracket => true
  | _ => false

/-- Synthetic empty literal token. -/
def synthLit (scope : Option String) : Token := ⟨TokType.literal, scope, none, []⟩

/-- Synthetic empty space token. -/
def synthSpace (scope : Option String) : Token := ⟨TokType.space, scope, none, []⟩

/-- The body of `normalize`'s loop plus its final flush, carrying the held-back
token `t0?`.  Branches in source order: (escape promotion), `\\`, infix symbol,
`{`, `}`, all-breaking-space (with space-run merging), else literal — each
inserting the synthetic tokens the source inserts.  The space-merge range union
asserts both ranges present in Python; inputs from `tokenize` always have
ranges, a missing one yields `none` here. -/
def normalizeAux (reg : Reg) : List Token → Option Token → List Token
  | [], none => []
  | [], some t0 =>
      if isValueLike t0.type then [t0]
      else [t0, synthLit t0.scope]
  | t1 :: rest, t0? =>
      if _h0 : t0?.isSome ∧ (t0?.getD t1).type = TokType.escape then
        let t1' :=
          if reg.isFunction t1.value then t1.with_type TokType.functionTok
          else if reg.isMacro t1.value then t1.with_type TokType.macroTok
          else t1
        normalizeAux reg rest (some t1')
      else if t1.value.chars = ['\\'] then
        t0?.toList ++ normalizeAux reg rest (some (t1.with_type TokType.escape))
      else if (infixLookup t1.value).isSome then
        let pre :=
          match t0? with
          | none => [synthLit t1.scope]
          | some t0 => if isValueLike t0.type then [] else [synthLit t1.scope]
        pre ++ t0?.toList ++
          normalizeAux reg rest (some (t1.with_type TokType.infixTok))
      else if t1.value.chars = ['{'] then
        (match t0? with
          | none => []
          | some t0 =>
              if isValueLike t0.type then [t0, synthSpace t1.scope] else [t0]) ++
          normalizeAux reg rest (some (t1.with_type TokType.lbracket))
      else if t1.value.chars = ['}'] then
        (match t0? with
          | none => []
          | some t0 =>
              if isValueLike t0.type then [t0] else [t0, synthLit t1.scope]) ++
          normalizeAux reg rest (some (t1.with_type TokType.rbracket))
      else if t1.value.all is_breaking_space then
        match t0? with
        | some t0 =>
            if t0.type = TokType.space then
              let range :=
                match t0.range, t1.range with
                | some (a, b), some (c, d) => some (min a c, max b d)
                | _, _ => none
              normalizeAux reg rest
                (some ⟨TokType.space, t1.scope, range, t0.value ++ t1.value⟩)
            else
              let ty := if isValueLike t0.type then TokType.space
                else TokType.literal
              [t0] ++ normalizeAux reg rest (some (t1.with_type ty))
        | none =>
            normalizeAux reg rest (some (t1.with_type TokType.literal))
      else
        (match t0? with
          | none => []
          | some t0 =>
              if isValueLike t0.type then [t0, synthSpace t1.scope] else [t0]) ++
          normalizeAux reg rest (some (t1.with_type TokType.literal))

/-- `markup.py` `normalize`. -/
def normalize (reg : Reg) (ts : List Token) : List Token :=
  normalizeAux reg ts none

/-- `Macro.create`: normalise the tokenized definition and compute the arity
with the source's truthiness test `if group and group >= argn` — a 0-valued
group (placeholder `#1`) is falsy in Python and is skipped. -/
def macroCreate (reg : Reg) (definition : Str) : MacroDef :=
  let tokens := normalize reg (tokenize definition)
  let argn := tokens.foldl
    (fun argn token =>
      match match_group token with
      | some g => if g ≠ 0 ∧ g ≥ argn then g + 1 else argn
      | none => argn) 0
  ⟨argn, tokens⟩

/-!
## The layout evaluator (`markup.py` lines 497–659)

The evaluator's mutable closure state (`depth`, `output`, `operators`,
`quirks`) plus the two thread-local stacks live in `St`.  `output` and
`operators` are stored head-is-top (Python appends/pops at the list end);
`quirksRev` stores the quirk list reversed (append-only in Python).  A step
returns the updated state and an optional exception; mutations made before an
exception persist, as in Python.  The `fuel` budget is consumed only when a
function/macro call is delivered (`push_arg` and loop continuations after a
functional evaluation) — the paths through which the Python mutual recursion
can grow without bound; all other recursion is structural, so fuel never
influences macro/function-free evaluation.
-/

/-- A quirk: message, scope, optional source range. -/
structure Quirk where
  msg : String
  scope : Option String
  range : Option (Nat × Nat)
deriving DecidableEq, Repr

/-- The evaluator state. -/
structure St where
  depth : Int
  output : List TextGroup
  operators : List Token
  quirksRev : List Quirk
  mstate : MState
  fstate : FState
deriving DecidableEq, Repr

/-- One evaluation step result: new state plus optional exception. -/
abbrev StepRes := St × Option PyErr

/-- Error-propagating sequencing of steps. -/
def StepRes.andThen (r : StepRes) (k : St → StepRes) : StepRes :=
  match r with
  | (st, none) => k st
  | (st, some e) => (st, some e)

/-- `FUNCTIONAL = (Token.FUNCTION, Token.MACRO)`. -/
def isFunctionalTy : TokType → Bool
  | TokType.functionTok | TokType.macroTok => true
  | _ => false

/-- The `INFIX`/`SPACE`/`else` branches of `evaluate` (the branches that do
not call `push_arg`): pop up to two operands (substituting empty groups and,
for infix, emitting "missing operand" when fewer than two are available),
combine them — infix via the operator, space via concatenation or, at depth
≤ 0 when the combined width exceeds `max_width`, as two separate output
entries — and push the result; any other token type hits `assert False`.
Returns (output, quirksRev, exception?). -/
def evaluateSimple (maxWidth : Int) (t : Token) (depth : Int)
    (output : List TextGroup) (quirksRev : List Quirk) :
    List TextGroup × List Quirk × Option PyErr :=
  if t.type = TokType.infixTok then
    match infixLookup t.value with
    | none => (output, quirksRev, some PyErr.keyError)
    | some op =>
        match output with
        | [] =>
            (op.eval TextGroup.empty TextGroup.empty :: output,
              ⟨"missing operand", t.scope, t.range⟩ :: quirksRev, none)
        | [rhs] =>
            (op.eval TextGroup.empty rhs :: [],
              ⟨"missing operand", t.scope, t.range⟩ :: quirksRev, none)
        | rhs :: lhs :: rest => (op.eval lhs rhs :: rest, quirksRev, none)
  else if t.type = TokType.space then
    let space := TextGroup.from_str t.value
    let popped : TextGroup × TextGroup × List TextGroup :=
      match output with
      | [] => (TextGroup.empty, TextGroup.empty, [])
      | [rhs] => (TextGroup.empty, rhs, [])
      | rhs :: lhs :: rest => (lhs, rhs, rest)
    let lhs := popped.1
    let rhs := popped.2.1
    let rest := popped.2.2
    if depth ≤ 0 ∧
        space.box.width + (lhs.box.width + rhs.box.width) > maxWidth then
      (rhs :: lhs.concat space :: rest, quirksRev, none)
    else
      ((lhs.concat space).concat rhs :: rest, quirksRev, none)
  else (output, quirksRev, some PyErr.assertError)

mutual

/-- Drive a list of evaluator inputs in order: tokens go through
`processInput`, already-evaluated groups (from macro substitution) go straight
to `output` — this is both the top-level token loop of `layout` and the
re-emission loop of `push_arg` for completed macros.  Every function of the
evaluator consumes one unit of `fuel` per call; a run out of fuel returns
`fuelOut` (Python's analogue is `RecursionError` on self-expanding macros —
any budget large enough for the run to finish gives the Python semantics). -/
def processItems (reg : Reg) (mw : Int) (fuel : Nat)
    (items : List (Token ⊕ TextGroup)) (st : St) : StepRes :=
  match fuel with
  | 0 => (st, some PyErr.fuelOut)
  | fuel + 1 =>
    match items with
    | [] => (st, none)
    | Sum.inr g :: rest =>
        processItems reg mw fuel rest { st with output := g :: st.output }
    | Sum.inl t :: rest =>
        match processInput reg mw fuel t st with
        | (st1, none) => processItems reg mw fuel rest st1
        | (st1, some e) => (st1, some e)

/-- `process_input`: dispatch one token. -/
def processInput (reg : Reg) (mw : Int) (fuel : Nat) (t : Token) (st : St) :
    StepRes :=
  match fuel with
  | 0 => (st, some PyErr.fuelOut)
  | fuel + 1 =>
    if isFunctionalTy t.type then pushArg reg mw fuel t none st
    else if t.type = TokType.lbracket then
      if t.value.chars ≠ ['{'] then (st, some PyErr.assertError)
      else ({ st with operators := t :: st.operators, depth := st.depth + 1 },
        none)
    else if t.type = TokType.rbracket then
      if t.value.chars ≠ ['}'] then (st, some PyErr.assertError)
      else
        match rbracketLoop reg mw fuel t st with
        | (st1, some e) => (st1, some e)
        | (st1, none) =>
            match st1.operators with
            | t1 :: ops1 =>
                if isFunctionalTy t1.type then
                  match st1.output with
                  | [] => ({ st1 with operators := ops1 }, some PyErr.indexError)
                  | g :: out1 =>
                      pushArg reg mw fuel t1 (some g)
                        { st1 with operators := ops1, output := out1 }
                else (st1, none)
            | [] => (st1, none)
    else if t.type = TokType.infixTok then
      match infixLookup t.value with
      | none => (st, some PyErr.keyError)
      | some op =>
          match infixLoop reg mw fuel op st with
          | (st1, some e) => (st1, some e)
          | (st1, none) => ({ st1 with operators := t :: st1.operators }, none)
    else if t.type = TokType.space then
      match st.operators with
      | t1 :: _ =>
          if isFunctionalTy t1.type then (st, none)
          else
            match spaceLoop reg mw fuel st with
            | (st1, some e) => (st1, some e)
            | (st1, none) =>
                ({ st1 with operators := t :: st1.operators }, none)
      | [] =>
          match spaceLoop reg mw fuel st with
          | (st1, some e) => (st1, some e)
          | (st1, none) => ({ st1 with operators := t :: st1.operators }, none)
    else
      let text := TextGroup.from_str t.value
      match st.operators with
      | t1 :: ops1 =>
          if isFunctionalTy t1.type then
            let q1 : Quirk :=
              ⟨"function/macro arguments should be grouped using brackets",
                t1.scope, t1.range⟩
            let q2 : Quirk :=
              ⟨"function/macro argument missing brackets", t.scope, t.range⟩
            pushArg reg mw fuel t1 (some text)
              { st with
                operators := ops1
                quirksRev := q2 :: q1 :: st.quirksRev }
          else ({ st with output := text :: st.output }, none)
      | [] => ({ st with output := text :: st.output }, none)

/-- `push_arg`: deliver `arg` (or open a call with `none`) to a
function/macro token.  A completed function result chains into a parked
function below, a completed macro re-emits its substituted body; incomplete
calls are parked on `operators`; any other token type hits `assert False`. -/
def pushArg (reg : Reg) (mw : Int) (fuel : Nat) (t : Token)
    (arg : Option TextGroup) (st : St) : StepRes :=
  match fuel with
  | 0 => (st, some PyErr.fuelOut)
  | fuel + 1 =>
    if t.type = TokType.functionTok then
      if ¬ reg.isFunction t.value then (st, some PyErr.keyError)
      else
        match fgcolorPush st.fstate arg with
        | (fst1, msgs, resOpt, err?) =>
            let st1 := { st with
              fstate := fst1
              quirksRev :=
                (msgs.map (fun m => Quirk.mk m t.scope t.range)).reverse ++
                  st.quirksRev }
            match err? with
            | some e => (st1, some e)
            | none =>
                match resOpt with
                | some r =>
                    match st1.operators with
                    | t1 :: ops1 =>
                        if t1.type = TokType.functionTok then
                          pushArg reg mw fuel t1 (some r)
                            { st1 with operators := ops1 }
                        else ({ st1 with output := r :: st1.output }, none)
                    | [] => ({ st1 with output := r :: st1.output }, none)
                | none =>
                    ({ st1 with operators := t :: st1.operators }, none)
    else if t.type = TokType.macroTok then
      match reg.lookupMacro t.value with
      | none => (st, some PyErr.keyError)
      | some md =>
          match macroPush md st.mstate arg with
          | (mst1, itemsOpt, err?) =>
              let st1 := { st with mstate := mst1 }
              match err? with
              | some e => (st1, some e)
              | none =>
                  match itemsOpt with
                  | some items =>
                      if items.isEmpty then
                        ({ st1 with operators := t :: st1.operators }, none)
                      else processItems reg mw fuel items st1
                  | none =>
                      ({ st1 with operators := t :: st1.operators }, none)
    else (st, some PyErr.assertError)

/-- `evaluate`: a function token gets a "missing argument" quirk and an empty
group delivered; other token types go through `evaluateSimple`. -/
def evaluateTok (reg : Reg) (mw : Int) (fuel : Nat) (t : Token) (st : St) :
    StepRes :=
  match fuel with
  | 0 => (st, some PyErr.fuelOut)
  | fuel + 1 =>
    if t.type = TokType.functionTok then
      pushArg reg mw fuel t (some TextGroup.empty)
        { st with quirksRev :=
            ⟨"missing argument for function", t.scope, t.range⟩ ::
              st.quirksRev }
    else
      match evaluateSimple mw t st.depth st.output st.quirksRev with
      | (out1, q1, e?) => ({ st with output := out1, quirksRev := q1 }, e?)

/-- The `while True` pop-and-evaluate loop of the `RBRACKET` branch: pop down
to the matching `lbracket` (decrementing `depth`), evaluating what is popped;
an emptied stack emits "unmatched right brace" (scope/range of the closing
token `t`). -/
def rbracketLoop (reg : Reg) (mw : Int) (fuel : Nat) (t : Token) (st : St) :
    StepRes :=
  match fuel with
  | 0 => (st, some PyErr.fuelOut)
  | fuel + 1 =>
    match st.operators with
    | [] =>
        ({ st with quirksRev :=
            ⟨"unmatched right brace", t.scope, t.range⟩ :: st.quirksRev },
          none)
    | t1 :: ops1 =>
        if t1.type = TokType.lbracket then
          if t1.value.chars ≠ ['{'] then
            ({ st with operators := ops1 }, some PyErr.assertError)
          else ({ st with operators := ops1, depth := st.depth - 1 }, none)
        else if isFunctionalTy t1.type then
          match evaluateTok reg mw fuel t1 { st with operators := ops1 } with
          | (st1, some e) => (st1, some e)
          | (st1, none) => rbracketLoop reg mw fuel t st1
        else
          match evaluateSimple mw t1 st.depth st.output st.quirksRev with
          | (out1, q1, some e) =>
              ({ st with operators := ops1, output := out1, quirksRev := q1 },
                some e)
          | (out1, q1, none) =>
              rbracketLoop reg mw fuel t
                { st with operators := ops1, output := out1, quirksRev := q1 }

/-- The pop-and-evaluate loop of the `INFIX` branch: precedence climbing — pop
while the top token's value is a registered infix symbol whose precedence and
the declared associativity demand evaluation first. -/
def infixLoop (reg : Reg) (mw : Int) (fuel : Nat) (op : InfixOp) (st : St) :
    StepRes :=
  match fuel with
  | 0 => (st, some PyErr.fuelOut)
  | fuel + 1 =>
    match st.operators with
    | [] => (st, none)
    | t1 :: ops1 =>
        match infixLookup t1.value with
        | none => (st, none)
        | some op1 =>
            if op.precedence > op1.precedence then (st, none)
            else if op.assoc = Assoc.right ∧ op.precedence ≥ op1.precedence then
              (st, none)
            else if isFunctionalTy t1.type then
              match evaluateTok reg mw fuel t1 { st with operators := ops1 } with
              | (st1, some e) => (st1, some e)
              | (st1, none) => infixLoop reg mw fuel op st1
            else
              match evaluateSimple mw t1 st.depth st.output st.quirksRev with
              | (out1, q1, some e) =>
                  ({ st with
                    operators := ops1
                    output := out1
                    quirksRev := q1 }, some e)
              | (out1, q1, none) =>
                  infixLoop reg mw fuel op
                    { st with
                      operators := ops1
                      output := out1
                      quirksRev := q1 }

/-- The pop-and-evaluate loop of the `SPACE` branch: pop down to the nearest
`lbracket` (exclusive), evaluating what is popped. -/
def spaceLoop (reg : Reg) (mw : Int) (fuel : Nat) (st : St) : StepRes :=
  match fuel with
  | 0 => (st, some PyErr.fuelOut)
  | fuel + 1 =>
    match st.operators with
    | [] => (st, none)
    | t1 :: ops1 =>
        if t1.type = TokType.lbracket then (st, none)
        else if isFunctionalTy t1.type then
          match evaluateTok reg mw fuel t1 { st with operators := ops1 } with
          | (st1, some e) => (st1, some e)
          | (st1, none) => spaceLoop reg mw fuel st1
        else
          match evaluateSimple mw t1 st.depth st.output st.quirksRev with
          | (out1, q1, some e) =>
              ({ st with operators := ops1, output := out1, quirksRev := q1 },
                some e)
          | (out1, q1, none) =>
              spaceLoop reg mw fuel
                { st with operators := ops1, output := out1, quirksRev := q1 }

end

/-- The end-of-input unwind of `layout`: pop every remaining operator,
emitting "unmatched left brace" for lbrackets and evaluating everything
else. -/
def unwindLoop (reg : Reg) (mw : Int) (fuel : Nat) (st : St) : StepRes :=
  match fuel with
  | 0 => (st, some PyErr.fuelOut)
  | fuel + 1 =>
    match st.operators with
    | [] => (st, none)
    | t1 :: ops1 =>
        if t1.type = TokType.lbracket then
          if t1.value.chars ≠ ['{'] then
            ({ st with operators := ops1 }, some PyErr.assertError)
          else
            unwindLoop reg mw fuel
              { st with
                operators := ops1
                quirksRev :=
                  ⟨"unmatched left brace", t1.scope, t1.range⟩ ::
                    st.quirksRev }
        else if isFunctionalTy t1.type then
          match evaluateTok reg mw fuel t1 { st with operators := ops1 } with
          | (st1, some e) => (st1, some e)
          | (st1, none) => unwindLoop reg mw fuel st1
        else
          match evaluateSimple mw t1 st.depth st.output st.quirksRev with
          | (out1, q1, some e) =>
              ({ st with operators := ops1, output := out1, quirksRev := q1 },
                some e)
          | (out1, q1, none) =>
              unwindLoop reg mw fuel
                { st with operators := ops1, output := out1, quirksRev := q1 }

/-- The two thread-local stacks that survive between `layout` calls:
`Macro.tls.state` and `fgcolor`'s color stack.  Python initialises each lazily
on first use ( `[]` resp. `[ANSI_DEFAULT]`); `Tls.init` is that first-use
state of a fresh process. -/
structure Tls where
  mstate : MState
  fstate : FState
deriving DecidableEq, Repr

/-- Thread-local state of a fresh process. -/
def Tls.init : Tls := ⟨[], [some ANSI_DEFAULT]⟩

/-- Final `reduce`: stack the produced lines one row below the previous
(`concat` with `x_offset=0`, `y_offset=-line.height`), starting from the
empty group.  `st.output` is stored head-is-top, so Python's left-to-right
fold runs over its reverse. -/
def layoutFinish (st : St) : List Quirk × TextGroup :=
  let st1 :=
    if st.output.isEmpty then
      { st with quirksRev := ⟨"empty output", none, none⟩ :: st.quirksRev }
    else st
  (st1.quirksRev.reverse,
    st1.output.reverse.foldl
      (fun acc line => acc.concat line (some 0) (some (-line.box.height)) none)
      TextGroup.empty)

/-- `markup.py` `layout`: run every token through `process_input`, unwind the
remaining operators, add the "empty output" quirk if nothing was produced and
fold the output lines into one `TextGroup`.  Returns the surviving
thread-local state together with the result (or the escaped exception). -/
def layout (reg : Reg) (tokens : List Token) (maxWidth : Int) (fuel : Nat)
    (tls : Tls) : Tls × Except PyErr (List Quirk × TextGroup) :=
  let st0 : St :=
    { depth := 0, output := [], operators := [], quirksRev := []
      mstate := tls.mstate, fstate := tls.fstate }
  match processItems reg maxWidth fuel (tokens.map Sum.inl) st0 with
  | (st1, some e) => (⟨st1.mstate, st1.fstate⟩, .error e)
  | (st1, none) =>
      match unwindLoop reg maxWidth fuel st1 with
      | (st2, some e) => (⟨st2.mstate, st2.fstate⟩, .error e)
      | (st2, none) => (⟨st2.mstate, st2.fstate⟩, .ok (layoutFinish st2))

/-- The full pipeline `layout(normalize(tokenize(s)), max_width)` of the
source's main loop. -/
def layoutSource (reg : Reg) (s : Str) (maxWidth : Int) (fuel : Nat)
    (tls : Tls) : Tls × Except PyErr (List Quirk × TextGroup) :=
  layout reg (normalize reg (tokenize s)) maxWidth fuel tls

/-- The built-in registry at interpreter startup: the one `@Function.define`
in `markup.py` registers `fgcolor`; no macros. -/
def builtinReg : Reg := ⟨["fgcolor".data], []⟩

/-- The renderer's row computation: `markup.py`'s main loop draws item `it`
at terminal row `10 - it.y` (ANSI rows grow downward, so larger `y` is drawn
higher on screen). -/
def renderRow (it : Text) : Int := 10 - it.y

/-!
## Concrete inputs

`classify` supplies the `unicodedata` oracle answers for the ASCII characters
used in concrete inputs: `{ [ (` are `Ps`, `} ] )` are `Pe`, `\\` and `#` are
`Po`, `^` is `Sk`, `_` is `Pc`, the space is `Zs`, and ASCII letters/digits
fall in untested categories; none is East-Asian wide. -/
def classify (ch : Char) : MChar :=
  if ch = '{' ∨ ch = '[' ∨ ch = '(' then ⟨ch, UCat.Ps, false⟩
  else if ch = '}' ∨ ch = ']' ∨ ch = ')' then ⟨ch, UCat.Pe, false⟩
  else if ch = '\\' ∨ ch = '#' then ⟨ch, UCat.Po, false⟩
  else if ch = '^' then ⟨ch, UCat.Sk, false⟩
  else if ch = '_' then ⟨ch, UCat.Pc, false⟩
  else if ch = ' ' then ⟨ch, UCat.Zs, false⟩
  else ⟨ch, UCat.other, false⟩

/-- Classified string from an ASCII Lean string. -/
def mkStr (s : String) : Str := s.data.map classify

/-!
## Concrete claim checks (C1, C3, C4, C5, C10 and the C8/C9 counterexamples)
-/

/-- A registry with a macro registered as `Macro.create('m', '[#2]')`; because
of the arity bug its stored arity is 2 (the sole reachable way to a positive
arity). -/
def regM2 : Reg :=
  ⟨["fgcolor".data], [("m".data, macroCreate builtinReg (mkStr "[#2]"))]⟩

/-- A registry with `Macro.create('name', '[#1]')` — the spec's scenario-6
macro. -/
def regName : Reg :=
  ⟨["fgcolor".data], [("name".data, macroCreate builtinReg (mkStr "[#1]"))]⟩

/-- C3 (code bug): `Macro.create('m', '[#1]')` stores arity 0, although the
only placeholder occurring in the normalized body is `#1` (internal index 0,
so the claimed arity is `1 + 0 = 1`).  The cause is the truthiness test
`if group and group >= argn` in `Macro.create`, which skips the falsy group
index 0 that `match_group` deliberately returns. -/
theorem macro_create_arity_bug :
    (macroCreate builtinReg (mkStr "[#1]")).argn = 0 ∧
    ((macroCreate builtinReg (mkStr "[#1]")).tokens.filterMap match_group)
      = [0] := by decide

/-- C1 (code bug): with the reachable registry `regM2` (fgcolor plus
`Macro.create('m', '[#2]')`), evaluating the source `"\\m"` leaves the
incomplete macro call parked on the operator stack; the end-of-input unwind
feeds it to `evaluate`, whose final branch is `assert False` — the evaluation
aborts with an `AssertionError` instead of returning quirks. -/
theorem layout_raises_on_incomplete_macro :
    (layoutSource regM2 (mkStr "\\m") 100 15 Tls.init).2 =
      .error PyErr.assertError := by decide

/-- C4 (code bug): with `Macro.create('name', '[#1]')` registered, evaluating
`"\\name{x}"` raises `IndexError`: the stored arity is 0 (see
`macro_create_arity_bug`), so the macro completes with zero collected
arguments and the body placeholder `#1` indexes `args[0]` into an empty
list — no `TextGroup` is ever produced, let alone one equal to that of
`"[x]"`. -/
theorem macro_call_raises_index_error :
    (layoutSource regName (mkStr "\\name{x}") 100 20 Tls.init).2 =
      .error PyErr.indexError := by decide

/-- C10: for the empty source string, any registry, any retained thread-local
state, any `max_width` and any sufficient fuel, `layout` returns exactly one
quirk `('empty output', None, None)` together with the empty `TextGroup`. -/
theorem layout_empty_source (reg : Reg) (tls : Tls) (w : Int) (fuel : Nat)
    (hf : 1 ≤ fuel) :
    layoutSource reg [] w fuel tls =
      (tls, .ok ([⟨"empty output", none, none⟩], TextGroup.empty)) := by
  obtain ⟨f, rfl⟩ : ∃ f, fuel = f + 1 := ⟨fuel - 1, by omega⟩
  cases tls with
  | mk m f' =>
      simp [layoutSource, layout, normalize, normalizeAux, tokenize,
        tokenizeAux, processItems, unwindLoop, layoutFinish, TextGroup.empty,
        TextBox.empty]

/-- Closed witness for `layout_empty_source`. -/
theorem layout_empty_source_witness :
    layoutSource builtinReg [] 20 5 Tls.init =
      (Tls.init, .ok ([⟨"empty output", none, none⟩], TextGroup.empty)) :=
  layout_empty_source builtinReg Tls.init 20 5 (by omega)

/-- The result of the first `"\\fgcolor{red}{x}"` call in a fresh process:
`"x"` wrapped between the red escape and `suffix` (the default escape in a
fresh process). -/
def fgcolorOkGroup (suffix : Option Str) : TextGroup :=
  ⟨⟨1, 1, 1⟩,
    [⟨0, 0, some ANSI_RED⟩, ⟨0, 0, some (mkStr "x")⟩, ⟨0, 0, suffix⟩]⟩

/-- Step chaining: a successful `process_input` step followed by the rest of
the input. -/
theorem processItems_cons_ok (reg : Reg) (mw : Int) (fuel : Nat) (t : Token)
    (rest : List (Token ⊕ TextGroup)) (st st1 : St) (out : StepRes)
    (h1 : processInput reg mw fuel t st = (st1, none))
    (h2 : processItems reg mw fuel rest st1 = out) :
    processItems reg mw (fuel + 1) (Sum.inl t :: rest) st = out := by
  rw [processItems, h1]
  exact h2

/-- Exhausted input returns the current state. -/
theorem processItems_nil (reg : Reg) (mw : Int) (fuel : Nat) (st : St) :
    processItems reg mw (fuel + 1) [] st = (st, none) := by
  rw [processItems]

/-- The normalized stream of `"\\fgcolor{red}{x}"`. -/
def tokTy (ty : TokType) (a b : Nat) (v : String) : Token :=
  ⟨ty, none, some (a, b), mkStr v⟩

/-- The parked `fgcolor` token of the C5 runs. -/
def tokFg : Token := tokTy TokType.functionTok 1 7 "fgcolor"

/-- An lbracket token at source position `a`. -/
def tokLB (a : Nat) : Token := tokTy TokType.lbracket a a "\x7b"

theorem streamFgRedX : normalize regM2 (tokenize (mkStr "\\fgcolor{red}{x}")) =
    [tokFg, ⟨TokType.space, none, none, []⟩,
     tokLB 8, tokTy TokType.literal 9 11 "red",
     tokTy TokType.rbracket 12 12 "\x7d", ⟨TokType.space, none, none, []⟩,
     tokLB 13, tokTy TokType.literal 14 14 "x",
     tokTy TokType.rbracket 15 15 "\x7d"] := by decide

theorem streamFgM : normalize regM2 (tokenize (mkStr "\\fgcolor \\m")) =
    [tokFg, ⟨TokType.space, none, some (8, 8), mkStr " "⟩,
     ⟨TokType.macroTok, none, some (10, 11), mkStr "m"⟩] := by decide

/-- Machine state during the C5 runs: `dep`/`out`/`ops` as given, no quirks,
macro stack `ms`, color stack `fs`. -/
def c5St (dep : Int) (out : List TextGroup) (ops : List Token) (ms : MState)
    (fs : FState) : St :=
  ⟨dep, out, ops, [], ms, fs⟩

/-- The group `"x"` wrapped between the red escape and `suffix`, before the
final line fold (baseline 0). -/
def wrapX (suffix : Option Str) : TextGroup :=
  ⟨⟨1, 1, 0⟩,
    [⟨0, 0, some ANSI_RED⟩, ⟨0, 0, some (mkStr "x")⟩, ⟨0, 0, suffix⟩]⟩

/-- The first `"\\fgcolor{red}{x}"` run, token by token (fresh process:
macro stack `[]`, color stack `[ANSI_DEFAULT]`). -/
theorem c5_run1_items :
    processItems regM2 20 20
      (([tokFg, ⟨TokType.space, none, none, []⟩,
         tokLB 8, tokTy TokType.literal 9 11 "red",
         tokTy TokType.rbracket 12 12 "\x7d", ⟨TokType.space, none, none, []⟩,
         tokLB 13, tokTy TokType.literal 14 14 "x",
         tokTy TokType.rbracket 15 15 "\x7d"]).map Sum.inl)
      (c5St 0 [] [] [] [some ANSI_DEFAULT]) =
    (c5St 0 [wrapX (some ANSI_DEFAULT)] [] [] [some ANSI_DEFAULT], none) := by
  refine processItems_cons_ok _ _ _ _ _ _
    (c5St 0 [] [tokFg] [] [none, some ANSI_DEFAULT]) _ (by decide) ?_
  refine processItems_cons_ok _ _ _ _ _ _
    (c5St 0 [] [tokFg] [] [none, some ANSI_DEFAULT]) _ (by decide) ?_
  refine processItems_cons_ok _ _ _ _ _ _
    (c5St 1 [] [tokLB 8, tokFg] [] [none, some ANSI_DEFAULT]) _ (by decide) ?_
  refine processItems_cons_ok _ _ _ _ _ _
    (c5St 1 [TextGroup.from_str (mkStr "red")] [tokLB 8, tokFg] []
      [none, some ANSI_DEFAULT]) _ (by decide) ?_
  refine processItems_cons_ok _ _ _ _ _ _
    (c5St 0 [] [tokFg] [] [some ANSI_RED, some ANSI_DEFAULT]) _ (by decide) ?_
  refine processItems_cons_ok _ _ _ _ _ _
    (c5St 0 [] [tokFg] [] [some ANSI_RED, some ANSI_DEFAULT]) _ (by decide) ?_
  refine processItems_cons_ok _ _ _ _ _ _
    (c5St 1 [] [tokLB 13, tokFg] [] [some ANSI_RED, some ANSI_DEFAULT]) _
    (by decide) ?_
  refine processItems_cons_ok _ _ _ _ _ _
    (c5St 1 [TextGroup.from_str (mkStr "x")] [tokLB 13, tokFg] []
      [some ANSI_RED, some ANSI_DEFAULT]) _ (by decide) ?_
  refine processItems_cons_ok _ _ _ _ _ _
    (c5St 0 [wrapX (some ANSI_DEFAULT)] [] [] [some ANSI_DEFAULT]) _
    (by decide) ?_
  exact processItems_nil _ _ 10 _

/-- The identical `"\\fgcolor{red}{x}"` run started from the thread-local
state `tlsLeaked` left by the aborted call: the dangling `None` beneath the
call's own stack entries survives, and the final wrap reads it as the suffix
(`state[-1]` after the pop), producing a different result. -/
theorem c5_run3_items :
    processItems regM2 20 20
      (([tokFg, ⟨TokType.space, none, none, []⟩,
         tokLB 8, tokTy TokType.literal 9 11 "red",
         tokTy TokType.rbracket 12 12 "\x7d", ⟨TokType.space, none, none, []⟩,
         tokLB 13, tokTy TokType.literal 14 14 "x",
         tokTy TokType.rbracket 15 15 "\x7d"]).map Sum.inl)
      (c5St 0 [] [] [[]] [none, some ANSI_DEFAULT]) =
    (c5St 0 [wrapX none] [] [[]] [none, some ANSI_DEFAULT], none) := by
  refine processItems_cons_ok _ _ _ _ _ _
    (c5St 0 [] [tokFg] [[]] [none, none, some ANSI_DEFAULT]) _ (by decide) ?_
  refine processItems_cons_ok _ _ _ _ _ _
    (c5St 0 [] [tokFg] [[]] [none, none, some ANSI_DEFAULT]) _ (by decide) ?_
  refine processItems_cons_ok _ _ _ _ _ _
    (c5St 1 [] [tokLB 8, tokFg] [[]] [none, none, some ANSI_DEFAULT]) _
    (by decide) ?_
  refine processItems_cons_ok _ _ _ _ _ _
    (c5St 1 [TextGroup.from_str (mkStr "red")] [tokLB 8, tokFg] [[]]
      [none, none, some ANSI_DEFAULT]) _ (by decide) ?_
  refine processItems_cons_ok _ _ _ _ _ _
    (c5St 0 [] [tokFg] [[]] [some ANSI_RED, none, some ANSI_DEFAULT]) _
    (by decide) ?_
  refine processItems_cons_ok _ _ _ _ _ _
    (c5St 0 [] [tokFg] [[]] [some ANSI_RED, none, some ANSI_DEFAULT]) _
    (by decide) ?_
  refine processItems_cons_ok _ _ _ _ _ _
    (c5St 1 [] [tokLB 13, tokFg] [[]] [some ANSI_RED, none, some ANSI_DEFAULT])
    _ (by decide) ?_
  refine processItems_cons_ok _ _ _ _ _ _
    (c5St 1 [TextGroup.from_str (mkStr "x")] [tokLB 13, tokFg] [[]]
      [some ANSI_RED, none, some ANSI_DEFAULT]) _ (by decide) ?_
  refine processItems_cons_ok _ _ _ _ _ _
    (c5St 0 [wrapX none] [] [[]] [none, some ANSI_DEFAULT]) _ (by decide) ?_
  exact processItems_nil _ _ 10 _

/-- The thread-local state left behind by the aborted `"\\fgcolor \\m"`
call: a stale empty argument group on `Macro`'s stack and a dangling `None`
on `fgcolor`'s color stack. -/
def tlsLeaked : Tls := ⟨[[]], [none, some ANSI_DEFAULT]⟩

/-- C5 (code bug): thread-local state retained across `layout` calls changes
results.  In a fresh process with `regM2`: (1) `"\\fgcolor{red}{x}"` returns
normally — `"x"` wrapped between the red and default escapes — and hands the
initial thread-local state on unchanged; (2) from that same state,
`"\\fgcolor \\m"` aborts with `AssertionError` (see C1) and leaves
`tlsLeaked` behind; (3) from `tlsLeaked`, the *identical* call
`"\\fgcolor{red}{x}"` returns a different result — the wrap suffix is Python
`None` instead of the default escape.  So identical `(source, max_width)`
calls in one process are not bit-identical. -/
theorem layout_thread_state_leak :
    layoutSource regM2 (mkStr "\\fgcolor{red}{x}") 20 20 Tls.init =
      (Tls.init, .ok ([], fgcolorOkGroup (some ANSI_DEFAULT))) ∧
    layoutSource regM2 (mkStr "\\fgcolor \\m") 20 20 Tls.init =
      (tlsLeaked, .error PyErr.assertError) ∧
    layoutSource regM2 (mkStr "\\fgcolor{red}{x}") 20 20 tlsLeaked =
      (tlsLeaked, .ok ([], fgcolorOkGroup none)) ∧
    fgcolorOkGroup (some ANSI_DEFAULT) ≠ fgcolorOkGroup none := by
  have hrun2 : processItems regM2 20 20
      (([tokFg, ⟨TokType.space, none, some (8, 8), mkStr " "⟩,
         ⟨TokType.macroTok, none, some (10, 11), mkStr "m"⟩]).map Sum.inl)
      (c5St 0 [] [] [] [some ANSI_DEFAULT]) =
      (c5St 0 [] [⟨TokType.macroTok, none, some (10, 11), mkStr "m"⟩, tokFg]
        [[]] [none, some ANSI_DEFAULT], none) := by
    refine processItems_cons_ok _ _ _ _ _ _
      (c5St 0 [] [tokFg] [] [none, some ANSI_DEFAULT]) _ (by decide) ?_
    refine processItems_cons_ok _ _ _ _ _ _
      (c5St 0 [] [tokFg] [] [none, some ANSI_DEFAULT]) _ (by decide) ?_
    refine processItems_cons_ok _ _ _ _ _ _
      (c5St 0 []
        [⟨TokType.macroTok, none, some (10, 11), mkStr "m"⟩, tokFg]
        [[]] [none, some ANSI_DEFAULT]) _ (by decide) ?_
    exact processItems_nil _ _ 16 _
  refine ⟨?_, ?_, ?_, by decide⟩
  · rw [layoutSource, streamFgRedX]
    simp only [layout, Tls.init]
    rw [show (⟨0, [], [], [], [], [some ANSI_DEFAULT]⟩ : St) =
      c5St 0 [] [] [] [some ANSI_DEFAULT] from rfl, c5_run1_items]
    decide
  · rw [layoutSource, streamFgM]
    simp only [layout, Tls.init]
    rw [show (⟨0, [], [], [], [], [some ANSI_DEFAULT]⟩ : St) =
      c5St 0 [] [] [] [some ANSI_DEFAULT] from rfl, hrun2]
    decide
  · rw [layoutSource, streamFgRedX]
    simp only [layout, tlsLeaked]
    rw [show (⟨0, [], [], [], [[]], [none, some ANSI_DEFAULT]⟩ : St) =
      c5St 0 [] [] [[]] [none, some ANSI_DEFAULT] from rfl, c5_run3_items]
    decide

/-- A registry with `Macro.create('z', '{')`: arity 0, body = an lbracket
token plus a synthetic empty literal. -/
def regZ : Reg := ⟨[], [("z".data, macroCreate builtinReg (mkStr "\x7b"))]⟩

/-- Number of quirks in `q` with message `m`. -/
def countQuirk (m : String) (q : List Quirk) : Nat :=
  (q.filter (fun qk => qk.msg = m)).length

/-- C9 counterexample: the normalized stream of `"\\z"` under `regZ` is the
single macro token `z` — it contains no lbracket token at all — yet
evaluation expands the macro body, which pushes an lbracket, and emits one
"unmatched left brace" quirk.  So over streams with macro tokens the claimed
count (quirks = unmatched lbrackets of the stream) fails. -/
theorem unmatched_brace_macro_counterexample :
    normalize regZ (tokenize (mkStr "\\z")) =
      [⟨TokType.macroTok, none, some (1, 2), mkStr "z"⟩] ∧
    (∀ t ∈ normalize regZ (tokenize (mkStr "\\z")),
      t.type ≠ TokType.lbracket ∧ t.type ≠ TokType.rbracket) ∧
    (∃ q g,
      (layout regZ (normalize regZ (tokenize (mkStr "\\z"))) 20 15 Tls.init).2 =
        .ok (q, g) ∧ countQuirk "unmatched left brace" q = 1) := by
  refine ⟨by decide, by decide, ?_⟩
  refine ⟨[⟨"unmatched left brace", none, some (0, 0)⟩],
    ⟨⟨0, 1, 1⟩, [⟨0, 0, some []⟩]⟩, by decide, by decide⟩

/-- C8 counterexample: evaluating `"a^b"` yields zero quirks and the box
`1×2`, but the item carrying `"b"` sits at `y = 1` while `"a"` sits at
`y = 0`; the renderer draws row `10 - y`, so `"b"` is drawn one row *above*
`"a"` — not `"a"` above `"b"` as the claim states. -/
theorem caret_stacks_rhs_above :
    (layoutSource builtinReg (mkStr "a^b") 100 15 Tls.init).2 =
      .ok ([], ⟨⟨1, 2, 2⟩,
        [⟨0, 0, some (mkStr "a")⟩, ⟨0, 1, some (mkStr "b")⟩]⟩) ∧
    renderRow ⟨0, 0, some (mkStr "a")⟩ >
      renderRow ⟨0, 1, some (mkStr "b")⟩ := by
  refine ⟨by decide, by decide⟩

/-!
## C9 (amended): brace-quirk counting over macro/function-free streams
-/

/-- A token of the normalized base grammar, free of function/macro tokens:
literals, escapes, spaces, registered infix symbols, and brackets carrying
their defining character. -/
def baseTok (t : Token) : Prop :=
  t.type = TokType.literal ∨ t.type = TokType.escape ∨
  t.type = TokType.space ∨
  (t.type = TokType.infixTok ∧ (infixLookup t.value).isSome) ∨
  (t.type = TokType.lbracket ∧ t.value.chars = ['{']) ∨
  (t.type = TokType.rbracket ∧ t.value.chars = ['}'])

instance (t : Token) : Decidable (baseTok t) := by
  unfold baseTok; infer_instance

/-- A token that can sit on the operator stack during a base run. -/
def opTok (t : Token) : Prop :=
  t.type = TokType.space ∨
  (t.type = TokType.infixTok ∧ (infixLookup t.value).isSome) ∨
  (t.type = TokType.lbracket ∧ t.value.chars = ['{'])

/-- Is the token an lbracket? -/
def isLbr (t : Token) : Bool :=
  match t.type with
  | TokType.lbracket => true
  | _ => false

/-- Number of lbracket tokens in a list. -/
def countLbr (ops : List Token) : Nat := (ops.filter isLbr).length

/-- One step of the standard bracket-matching counter `(open, unmatched-right)`. -/
def braceStep (t : Token) (lr : Nat × Nat) : Nat × Nat :=
  if t.type = TokType.lbracket then (lr.1 + 1, lr.2)
  else if t.type = TokType.rbracket then
    (if 0 < lr.1 then (lr.1 - 1, lr.2) else (lr.1, lr.2 + 1))
  else lr

/-- The bracket-matching counter folded over a stream. -/
def braceBal (toks : List Token) (lr : Nat × Nat) : Nat × Nat :=
  toks.foldl (fun lr t => braceStep t lr) lr

/-- Number of lbracket tokens of the stream never matched by an rbracket. -/
def unmatchedL (toks : List Token) : Nat := (braceBal toks (0, 0)).1

/-- Number of rbracket tokens of the stream with no matching lbracket. -/
def unmatchedR (toks : List Token) : Nat := (braceBal toks (0, 0)).2

/-- "unmatched left brace" quirks recorded so far. -/
def countLQ (st : St) : Nat := countQuirk "unmatched left brace" st.quirksRev

/-- "unmatched right brace" quirks recorded so far. -/
def countRQ (st : St) : Nat := countQuirk "unmatched right brace" st.quirksRev

theorem countQuirk_cons_ne (m : String) (q : Quirk) (qs : List Quirk)
    (h : q.msg ≠ m) : countQuirk m (q :: qs) = countQuirk m qs := by
  simp [countQuirk, List.filter, h]

theorem countQuirk_cons_eq (m : String) (q : Quirk) (qs : List Quirk)
    (h : q.msg = m) : countQuirk m (q :: qs) = countQuirk m qs + 1 := by
  simp [countQuirk, List.filter, h]

theorem countQuirk_reverse (m : String) (qs : List Quirk) :
    countQuirk m qs.reverse = countQuirk m qs := by
  simp [countQuirk, List.filter_reverse]

/-- `evaluate`'s `SPACE` branch never raises and never adds a quirk. -/
theorem evaluateSimple_space (mw : Int) (t : Token) (d : Int)
    (out : List TextGroup) (q : List Quirk) (hsp : t.type = TokType.space) :
    ∃ out', evaluateSimple mw t d out q = (out', q, none) := by
  have h1 : ¬ t.type = TokType.infixTok := by simp [hsp]
  unfold evaluateSimple
  rw [if_neg h1, if_pos hsp]
  rcases out with _ | ⟨r, _ | ⟨l, rest⟩⟩ <;> dsimp only <;>
    split_ifs <;> exact ⟨_, rfl⟩

/-- `evaluate`'s `INFIX` branch on a registered symbol never raises and adds
at most a "missing operand" quirk — never a brace quirk. -/
theorem evaluateSimple_infixv (mw : Int) (t : Token) (d : Int)
    (out : List TextGroup) (q : List Quirk) (op : InfixOp)
    (hin : t.type = TokType.infixTok) (hop : infixLookup t.value = some op) :
    ∃ out' q', evaluateSimple mw t d out q = (out', q', none) ∧
      ∀ m, m ≠ "missing operand" → countQuirk m q' = countQuirk m q := by
  unfold evaluateSimple
  rw [if_pos hin, hop]
  cases out with
  | nil =>
      refine ⟨_, _, rfl, fun m hm => ?_⟩
      exact countQuirk_cons_ne m _ _ (fun hh => hm hh.symm)
  | cons rhs rest =>
      cases rest with
      | nil =>
          refine ⟨_, _, rfl, fun m hm => ?_⟩
          exact countQuirk_cons_ne m _ _ (fun hh => hm hh.symm)
      | cons lhs rest2 => exact ⟨_, _, rfl, fun m hm => rfl⟩

/-- An operator-stack token is never a function/macro token. -/
theorem opTok_not_functional (t : Token) (h : opTok t) :
    isFunctionalTy t.type = false := by
  rcases h with h | ⟨h, -⟩ | ⟨h, -⟩ <;> rw [h] <;> rfl

theorem countLbr_cons_lbr (t : Token) (ops : List Token)
    (h : isLbr t = true) : countLbr (t :: ops) = countLbr ops + 1 := by
  simp [countLbr, List.filter, h]

theorem countLbr_cons_not (t : Token) (ops : List Token)
    (h : isLbr t = false) : countLbr (t :: ops) = countLbr ops := by
  simp [countLbr, List.filter, h]

theorem isLbr_type (t : Token) (h : isLbr t = true) :
    t.type = TokType.lbracket := by
  rw [isLbr] at h
  revert h
  cases t.type <;> simp

theorem isLbr_type_ne (t : Token) (h : isLbr t = false) :
    ¬ t.type = TokType.lbracket := by
  rw [isLbr] at h
  revert h
  cases t.type <;> simp

theorem spaceLoop_base (reg : Reg) (mw : Int) :
    ∀ (ops : List Token) (st : St) (fuel : Nat),
      st.operators = ops → (∀ t ∈ ops, opTok t) → ops.length + 1 ≤ fuel →
      ∃ st', spaceLoop reg mw fuel st = (st', none) ∧
        st'.operators = ops.dropWhile (fun t => !isLbr t) ∧
        st'.depth = st.depth ∧
        (∀ m, m ≠ "missing operand" →
          countQuirk m st'.quirksRev = countQuirk m st.quirksRev) := by
  intro ops
  induction ops with
  | nil =>
      intro st fuel hops hwf hf
      obtain ⟨f, rfl⟩ : ∃ f, fuel = f + 1 := ⟨fuel - 1, by omega⟩
      refine ⟨st, ?_, by rw [hops]; rfl, rfl, fun m hm => rfl⟩
      simp only [spaceLoop, hops]
  | cons t rest ih =>
      intro st fuel hops hwf hf
      obtain ⟨f, rfl⟩ : ∃ f, fuel = f + 1 := ⟨fuel - 1, by omega⟩
      have hwt : opTok t := hwf t (by simp)
      by_cases hlb : isLbr t
      · have hty : t.type = TokType.lbracket := isLbr_type t hlb
        refine ⟨st, ?_, ?_, rfl, fun m hm => rfl⟩
        · simp only [spaceLoop, hops]
          rw [if_pos hty]
        · rw [hops, List.dropWhile]
          simp [hlb]
      · have hnf : isFunctionalTy t.type = false := opTok_not_functional t hwt
        have hty : ¬ t.type = TokType.lbracket :=
          isLbr_type_ne t (by simp [hlb])
        have hrest : ∀ u ∈ rest, opTok u := fun u hu => hwf u (by simp [hu])
        have hformula : (t :: rest).dropWhile (fun u => !isLbr u) =
            rest.dropWhile (fun u => !isLbr u) := by
          rw [List.dropWhile]
          simp [hlb]
        rcases hwt with hsp | ⟨hin, hlk⟩ | ⟨hLB, -⟩
        · obtain ⟨out', heq⟩ :=
            evaluateSimple_space mw t st.depth st.output st.quirksRev hsp
          obtain ⟨st', hrun, hops', hdep, hcnt⟩ := ih
            { st with operators := rest, output := out', quirksRev := st.quirksRev }
            f rfl hrest (by simp at hf ⊢; omega)
          refine ⟨st', ?_, ?_, ?_, ?_⟩
          · simp only [spaceLoop, hops]
            rw [if_neg hty, hnf]
            simp only [Bool.false_eq_true, if_false, heq]
            exact hrun
          · rw [hops']
            exact hformula.symm
          · rw [hdep]
          · intro m hm
            exact hcnt m hm
        · obtain ⟨op, hop⟩ := Option.isSome_iff_exists.mp hlk
          obtain ⟨out', q', heq, hq⟩ :=
            evaluateSimple_infixv mw t st.depth st.output st.quirksRev op hin hop
          obtain ⟨st', hrun, hops', hdep, hcnt⟩ := ih
            { st with operators := rest, output := out', quirksRev := q' }
            f rfl hrest (by simp at hf ⊢; omega)
          refine ⟨st', ?_, ?_, ?_, ?_⟩
          · simp only [spaceLoop, hops]
            rw [if_neg hty, hnf]
            simp only [Bool.false_eq_true, if_false, heq]
            exact hrun
          · rw [hops']
            exact hformula.symm
          · rw [hdep]
          · intro m hm
            rw [hcnt m hm]
            exact hq m hm
        · exact absurd hLB hty

theorem dropWhile_mem {α : Type} (p : α → Bool) :
    ∀ (l : List α) (x : α), x ∈ l.dropWhile p → x ∈ l := by
  intro l
  induction l with
  | nil => intro x hx; exact absurd hx (by simp)
  | cons a l ih =>
      intro x hx
      rw [List.dropWhile] at hx
      cases hp : p a
      · rw [hp] at hx
        exact hx
      · rw [hp] at hx
        exact List.mem_cons_of_mem a (ih x hx)
  
theorem dropWhile_length_le {α : Type} (p : α → Bool) :
    ∀ (l : List α), (l.dropWhile p).length ≤ l.length := by
  intro l
  induction l with
  | nil => simp
  | cons a l ih =>
      rw [List.dropWhile]
      cases hp : p a
      · exact Nat.le_refl _
      · exact Nat.le_trans ih (by simp)

theorem countLbr_dropWhile :
    ∀ (ops : List Token),
      countLbr (ops.dropWhile (fun t => !isLbr t)) = countLbr ops := by
  intro ops
  induction ops with
  | nil => rfl
  | cons t rest ih =>
      rw [List.dropWhile]
      cases h : isLbr t
      · simp only [h, Bool.not_false]
        rw [ih, countLbr_cons_not t rest h]
      · simp only [h, Bool.not_true]

theorem isLbr_false_of_ne (t : Token) (h : ¬ t.type = TokType.lbracket) :
    isLbr t = false := by
  rw [isLbr]
  revert h
  cases t.type <;> simp

theorem infixLoop_base (reg : Reg) (mw : Int) (op : InfixOp) :
    ∀ (ops : List Token) (st : St) (fuel : Nat),
      st.operators = ops → (∀ t ∈ ops, opTok t) → ops.length + 1 ≤ fuel →
      ∃ st', infixLoop reg mw fuel op st = (st', none) ∧
        (∃ k, st'.operators = ops.drop k) ∧
        countLbr st'.operators = countLbr ops ∧
        st'.depth = st.depth ∧
        (∀ m, m ≠ "missing operand" →
          countQuirk m st'.quirksRev = countQuirk m st.quirksRev) := by
  intro ops
  induction ops with
  | nil =>
      intro st fuel hops hwf hf
      obtain ⟨f, rfl⟩ : ∃ f, fuel = f + 1 := ⟨fuel - 1, by omega⟩
      refine ⟨st, ?_, ⟨0, hops⟩, by rw [hops], rfl, fun m hm => rfl⟩
      simp only [infixLoop, hops]
  | cons t rest ih =>
      intro st fuel hops hwf hf
      obtain ⟨f, rfl⟩ : ∃ f, fuel = f + 1 := ⟨fuel - 1, by omega⟩
      have hwt : opTok t := hwf t (by simp)
      match hlk1 : infixLookup t.value with
      | none =>
          refine ⟨st, ?_, ⟨0, hops⟩, by rw [hops], rfl, fun m hm => rfl⟩
          simp only [infixLoop, hops, hlk1]
      | some op1 =>
          by_cases hpre : op.precedence > op1.precedence
          · refine ⟨st, ?_, ⟨0, hops⟩, by rw [hops], rfl, fun m hm => rfl⟩
            simp only [infixLoop, hops, hlk1]
            rw [if_pos hpre]
          · by_cases hass :
                op.assoc = Assoc.right ∧ op.precedence ≥ op1.precedence
            · refine ⟨st, ?_, ⟨0, hops⟩, by rw [hops], rfl, fun m hm => rfl⟩
              simp only [infixLoop, hops, hlk1]
              rw [if_neg hpre, if_pos hass]
            · have hty : ¬ t.type = TokType.lbracket := by
                intro hcon
                rcases hwt with h | ⟨h, -⟩ | ⟨-, hv⟩
                · rw [hcon] at h; exact absurd h (by simp)
                · rw [hcon] at h; exact absurd h (by simp)
                · rw [show infixLookup t.value = none from by
                    rw [infixLookup, hv, if_neg (by decide), if_neg (by decide)]] at hlk1
                  exact absurd hlk1 (by simp)
              have hnf : isFunctionalTy t.type = false :=
                opTok_not_functional t hwt
              have hrest : ∀ u ∈ rest, opTok u := fun u hu => hwf u (by simp [hu])
              have hnlbr : isLbr t = false := isLbr_false_of_ne t hty
              have hcount :
                  countLbr (t :: rest) = countLbr rest :=
                countLbr_cons_not t rest hnlbr
              rcases hwt with hsp | ⟨hin, -⟩ | ⟨hLB, -⟩
              · obtain ⟨out', heq⟩ :=
                  evaluateSimple_space mw t st.depth st.output st.quirksRev hsp
                obtain ⟨st', hrun, hk, hcnt, hdep, hq⟩ := ih
                  { st with operators := rest, output := out', quirksRev := st.quirksRev }
                  f rfl hrest (by simp at hf ⊢; omega)
                obtain ⟨k, hk⟩ := hk
                refine ⟨st', ?_, ⟨k + 1, by rw [hk]; rfl⟩, ?_, ?_, ?_⟩
                · simp only [infixLoop, hops, hlk1]
                  rw [if_neg hpre, if_neg hass, hnf]
                  simp only [Bool.false_eq_true, if_false, heq]
                  exact hrun
                · rw [hcnt, hcount]
                · rw [hdep]
                · intro m hm
                  exact hq m hm
              · obtain ⟨out', q', heq, hqs⟩ :=
                  evaluateSimple_infixv mw t st.depth st.output st.quirksRev
                    op1 hin hlk1
                obtain ⟨st', hrun, hk, hcnt, hdep, hq⟩ := ih
                  { st with operators := rest, output := out', quirksRev := q' }
                  f rfl hrest (by simp at hf ⊢; omega)
                obtain ⟨k, hk⟩ := hk
                refine ⟨st', ?_, ⟨k + 1, by rw [hk]; rfl⟩, ?_, ?_, ?_⟩
                · simp only [infixLoop, hops, hlk1]
                  rw [if_neg hpre, if_neg hass, hnf]
                  simp only [Bool.false_eq_true, if_false, heq]
                  exact hrun
                · rw [hcnt, hcount]
                · rw [hdep]
                · intro m hm
                  rw [hq m hm]
                  exact hqs m hm
              · exact absurd hLB hty

theorem rbracketLoop_base (reg : Reg) (mw : Int) (t : Token) :
    ∀ (ops : List Token) (st : St) (fuel : Nat),
      st.operators = ops → (∀ u ∈ ops, opTok u) → ops.length + 1 ≤ fuel →
      ∃ st', rbracketLoop reg mw fuel t st = (st', none) ∧
        (countLbr ops = 0 →
          st'.operators = [] ∧ countRQ st' = countRQ st + 1 ∧
          (∀ m, m ≠ "missing operand" → m ≠ "unmatched right brace" →
            countQuirk m st'.quirksRev = countQuirk m st.quirksRev)) ∧
        (0 < countLbr ops →
          (∃ k, st'.operators = ops.drop k) ∧
          countLbr st'.operators + 1 = countLbr ops ∧
          (∀ m, m ≠ "missing operand" →
            countQuirk m st'.quirksRev = countQuirk m st.quirksRev)) := by
  intro ops
  induction ops with
  | nil =>
      intro st fuel hops hwf hf
      obtain ⟨f, rfl⟩ : ∃ f, fuel = f + 1 := ⟨fuel - 1, by omega⟩
      refine ⟨{ st with quirksRev :=
          ⟨"unmatched right brace", t.scope, t.range⟩ :: st.quirksRev },
        ?_, fun h0 => ⟨hops, ?_, fun m hm1 hm2 => ?_⟩,
        fun hpos => absurd hpos (by simp [countLbr])⟩
      · simp only [rbracketLoop, hops]
      · exact countQuirk_cons_eq _ _ _ rfl
      · exact countQuirk_cons_ne m _ _ (fun hh => hm2 hh.symm)
  | cons t1 rest ih =>
      intro st fuel hops hwf hf
      obtain ⟨f, rfl⟩ : ∃ f, fuel = f + 1 := ⟨fuel - 1, by omega⟩
      have hwt : opTok t1 := hwf t1 (by simp)
      have hrest : ∀ u ∈ rest, opTok u := fun u hu => hwf u (by simp [hu])
      by_cases hlb : t1.type = TokType.lbracket
      · have hv : t1.value.chars = ['{'] := by
          rcases hwt with h | ⟨h, -⟩ | ⟨-, hv⟩
          · rw [hlb] at h; exact absurd h (by simp)
          · rw [hlb] at h; exact absurd h (by simp)
          · exact hv
        have hcnt : countLbr (t1 :: rest) = countLbr rest + 1 :=
          countLbr_cons_lbr t1 rest (by rw [isLbr, hlb])
        refine ⟨{ st with operators := rest, depth := st.depth - 1 },
          ?_, fun h0 => absurd h0 (by omega), fun hpos =>
            ⟨⟨1, rfl⟩, by simpa using hcnt.symm, fun m hm => rfl⟩⟩
        simp only [rbracketLoop, hops]
        rw [if_pos hlb, if_neg (by rw [hv]; decide)]
      · have hnf : isFunctionalTy t1.type = false := opTok_not_functional t1 hwt
        have hnlbr : isLbr t1 = false := isLbr_false_of_ne t1 hlb
        have hcnt : countLbr (t1 :: rest) = countLbr rest :=
          countLbr_cons_not t1 rest hnlbr
        rcases hwt with hsp | ⟨hin, hlk⟩ | ⟨hLB, -⟩
        · obtain ⟨out', heq⟩ :=
            evaluateSimple_space mw t1 st.depth st.output st.quirksRev hsp
          obtain ⟨st', hrun, hzero, hpos⟩ := ih
            { st with operators := rest, output := out', quirksRev := st.quirksRev }
            f rfl hrest (by simp at hf ⊢; omega)
          refine ⟨st', ?_, ?_, ?_⟩
          · simp only [rbracketLoop, hops]
            rw [if_neg hlb, hnf]
            simp only [Bool.false_eq_true, if_false, heq]
            exact hrun
          · intro h0
            obtain ⟨ho, hr, hq⟩ := hzero (by omega)
            exact ⟨ho, hr, fun m hm1 hm2 => hq m hm1 hm2⟩
          · intro hp
            obtain ⟨⟨k, hk⟩, hc, hq⟩ := hpos (by omega)
            exact ⟨⟨k + 1, by rw [hk]; rfl⟩, by omega, fun m hm => hq m hm⟩
        · obtain ⟨op1, hop1⟩ := Option.isSome_iff_exists.mp hlk
          obtain ⟨out', q', heq, hqs⟩ :=
            evaluateSimple_infixv mw t1 st.depth st.output st.quirksRev
              op1 hin hop1
          obtain ⟨st', hrun, hzero, hpos⟩ := ih
            { st with operators := rest, output := out', quirksRev := q' }
            f rfl hrest (by simp at hf ⊢; omega)
          refine ⟨st', ?_, ?_, ?_⟩
          · simp only [rbracketLoop, hops]
            rw [if_neg hlb, hnf]
            simp only [Bool.false_eq_true, if_false, heq]
            exact hrun
          · intro h0
            obtain ⟨ho, hr, hq⟩ := hzero (by omega)
            refine ⟨ho, ?_, fun m hm1 hm2 => ?_⟩
            · have hqr := hqs "unmatched right brace" (by decide)
              unfold countRQ at hr ⊢
              dsimp only at hr
              omega
            · rw [hq m hm1 hm2]
              exact hqs m hm1
          · intro hp
            obtain ⟨⟨k, hk⟩, hc, hq⟩ := hpos (by omega)
            refine ⟨⟨k + 1, by rw [hk]; rfl⟩, by omega, fun m hm => ?_⟩
            rw [hq m hm]
            exact hqs m hm
        · exact absurd hLB hlb

theorem unwindLoop_base (reg : Reg) (mw : Int) :
    ∀ (ops : List Token) (st : St) (fuel : Nat),
      st.operators = ops → (∀ u ∈ ops, opTok u) → ops.length + 1 ≤ fuel →
      ∃ st', unwindLoop reg mw fuel st = (st', none) ∧
        st'.operators = [] ∧
        countLQ st' = countLQ st + countLbr ops ∧
        (∀ m, m ≠ "missing operand" → m ≠ "unmatched left brace" →
          countQuirk m st'.quirksRev = countQuirk m st.quirksRev) := by
  intro ops
  induction ops with
  | nil =>
      intro st fuel hops hwf hf
      obtain ⟨f, rfl⟩ : ∃ f, fuel = f + 1 := ⟨fuel - 1, by omega⟩
      refine ⟨st, ?_, hops, by simp [countLbr], fun m hm1 hm2 => rfl⟩
      simp only [unwindLoop, hops]
  | cons t1 rest ih =>
      intro st fuel hops hwf hf
      obtain ⟨f, rfl⟩ : ∃ f, fuel = f + 1 := ⟨fuel - 1, by omega⟩
      have hwt : opTok t1 := hwf t1 (by simp)
      have hrest : ∀ u ∈ rest, opTok u := fun u hu => hwf u (by simp [hu])
      by_cases hlb : t1.type = TokType.lbracket
      · have hv : t1.value.chars = ['{'] := by
          rcases hwt with h | ⟨h, -⟩ | ⟨-, hv⟩
          · rw [hlb] at h; exact absurd h (by simp)
          · rw [hlb] at h; exact absurd h (by simp)
          · exact hv
        have hcnt : countLbr (t1 :: rest) = countLbr rest + 1 :=
          countLbr_cons_lbr t1 rest (by rw [isLbr, hlb])
        obtain ⟨st', hrun, ho, hlq, hq⟩ := ih
          { st with operators := rest
                    quirksRev :=
                      ⟨"unmatched left brace", t1.scope, t1.range⟩ ::
                        st.quirksRev }
          f rfl hrest (by simp at hf ⊢; omega)
        refine ⟨st', ?_, ho, ?_, fun m hm1 hm2 => ?_⟩
        · simp only [unwindLoop, hops]
          rw [if_pos hlb, if_neg (by rw [hv]; decide)]
          exact hrun
        · have hce := countQuirk_cons_eq "unmatched left brace"
            ⟨"unmatched left brace", t1.scope, t1.range⟩ st.quirksRev rfl
          rw [hcnt]
          unfold countLQ at hlq ⊢
          dsimp only at hlq
          omega
        · rw [hq m hm1 hm2]
          dsimp only
          exact countQuirk_cons_ne m _ _ (fun hh => hm2 hh.symm)
      · have hnf : isFunctionalTy t1.type = false := opTok_not_functional t1 hwt
        have hnlbr : isLbr t1 = false := isLbr_false_of_ne t1 hlb
        have hcnt : countLbr (t1 :: rest) = countLbr rest :=
          countLbr_cons_not t1 rest hnlbr
        rcases hwt with hsp | ⟨hin, hlk⟩ | ⟨hLB, -⟩
        · obtain ⟨out', heq⟩ :=
            evaluateSimple_space mw t1 st.depth st.output st.quirksRev hsp
          obtain ⟨st', hrun, ho, hlq, hq⟩ := ih
            { st with operators := rest, output := out', quirksRev := st.quirksRev }
            f rfl hrest (by simp at hf ⊢; omega)
          refine ⟨st', ?_, ho, ?_, fun m hm1 hm2 => hq m hm1 hm2⟩
          · simp only [unwindLoop, hops]
            rw [if_neg hlb, hnf]
            simp only [Bool.false_eq_true, if_false, heq]
            exact hrun
          · rw [hcnt]
            unfold countLQ at hlq ⊢
            dsimp only at hlq
            omega
        · obtain ⟨op1, hop1⟩ := Option.isSome_iff_exists.mp hlk
          obtain ⟨out', q', heq, hqs⟩ :=
            evaluateSimple_infixv mw t1 st.depth st.output st.quirksRev
              op1 hin hop1
          obtain ⟨st', hrun, ho, hlq, hq⟩ := ih
            { st with operators := rest, output := out', quirksRev := q' }
            f rfl hrest (by simp at hf ⊢; omega)
          refine ⟨st', ?_, ho, ?_, fun m hm1 hm2 => ?_⟩
          · simp only [unwindLoop, hops]
            rw [if_neg hlb, hnf]
            simp only [Bool.false_eq_true, if_false, heq]
            exact hrun
          · have hql := hqs "unmatched left brace" (by decide)
            rw [hcnt]
            unfold countLQ at hlq ⊢
            dsimp only at hlq
            omega
          · rw [hq m hm1 hm2]
            exact hqs m hm1
        · exact absurd hLB hlb

theorem braceStep_other (t : Token) (lr : Nat × Nat)
    (h1 : ¬ t.type = TokType.lbracket) (h2 : ¬ t.type = TokType.rbracket) :
    braceStep t lr = lr := by
  rw [braceStep, if_neg h1, if_neg h2]

theorem braceStep_lbr (t : Token) (lr : Nat × Nat)
    (h : t.type = TokType.lbracket) :
    braceStep t lr = (lr.1 + 1, lr.2) := by
  rw [braceStep, if_pos h]

theorem braceStep_rbr (t : Token) (lr : Nat × Nat)
    (h : t.type = TokType.rbracket) :
    braceStep t lr =
      if 0 < lr.1 then (lr.1 - 1, lr.2) else (lr.1, lr.2 + 1) := by
  rw [braceStep, if_neg (by simp [h]), if_pos h]

/-- `process_input` on one token of the base grammar over an operator stack of
base operators: no exception, the stack stays made of base operators and grows
by at most one, the pair (lbrackets on the stack, "unmatched right brace"
quirks) advances by the bracket-matching step, and no "unmatched left brace"
quirk is ever added. -/
theorem processInput_base (reg : Reg) (mw : Int) (t : Token) (st : St)
    (fuel : Nat) (hb : baseTok t) (hwf : ∀ u ∈ st.operators, opTok u)
    (hf : st.operators.length + 2 ≤ fuel) :
    ∃ st', processInput reg mw fuel t st = (st', none) ∧
      (∀ u ∈ st'.operators, opTok u) ∧
      st'.operators.length ≤ st.operators.length + 1 ∧
      countLbr st'.operators =
        (braceStep t (countLbr st.operators, countRQ st)).1 ∧
      countRQ st' = (braceStep t (countLbr st.operators, countRQ st)).2 ∧
      countLQ st' = countLQ st := by
  obtain ⟨f, rfl⟩ : ∃ f, fuel = f + 1 := ⟨fuel - 1, by omega⟩
  rcases hb with hlit | hesc | hsp | ⟨hin, hlk⟩ | ⟨hlb, hv⟩ | ⟨hrb, hv⟩
  · have h1 : isFunctionalTy t.type = false := by rw [hlit]; rfl
    have h2 : ¬ t.type = TokType.lbracket := by simp [hlit]
    have h3 : ¬ t.type = TokType.rbracket := by simp [hlit]
    have h4 : ¬ t.type = TokType.infixTok := by simp [hlit]
    have h5 : ¬ t.type = TokType.space := by simp [hlit]
    refine ⟨{ st with output := TextGroup.from_str t.value :: st.output },
      ?_, hwf, by dsimp only; omega, ?_, ?_, rfl⟩
    · simp only [processInput]
      rw [h1]
      simp only [Bool.false_eq_true, if_false]
      rw [if_neg h2, if_neg h3, if_neg h4, if_neg h5]
      cases hops : st.operators with
      | nil => rfl
      | cons t1 ops1 =>
          have hfn : isFunctionalTy t1.type = false :=
            opTok_not_functional t1 (hwf t1 (by rw [hops]; simp))
          dsimp only
          rw [hfn]
          simp only [Bool.false_eq_true, if_false]
    · rw [braceStep_other t _ h2 h3]
    · rw [braceStep_other t _ h2 h3]
      rfl
  · have h1 : isFunctionalTy t.type = false := by rw [hesc]; rfl
    have h2 : ¬ t.type = TokType.lbracket := by simp [hesc]
    have h3 : ¬ t.type = TokType.rbracket := by simp [hesc]
    have h4 : ¬ t.type = TokType.infixTok := by simp [hesc]
    have h5 : ¬ t.type = TokType.space := by simp [hesc]
    refine ⟨{ st with output := TextGroup.from_str t.value :: st.output },
      ?_, hwf, by dsimp only; omega, ?_, ?_, rfl⟩
    · simp only [processInput]
      rw [h1]
      simp only [Bool.false_eq_true, if_false]
      rw [if_neg h2, if_neg h3, if_neg h4, if_neg h5]
      cases hops : st.operators with
      | nil => rfl
      | cons t1 ops1 =>
          have hfn : isFunctionalTy t1.type = false :=
            opTok_not_functional t1 (hwf t1 (by rw [hops]; simp))
          dsimp only
          rw [hfn]
          simp only [Bool.false_eq_true, if_false]
    · rw [braceStep_other t _ h2 h3]
    · rw [braceStep_other t _ h2 h3]
      rfl
  · have h1 : isFunctionalTy t.type = false := by rw [hsp]; rfl
    have h2 : ¬ t.type = TokType.lbracket := by simp [hsp]
    have h3 : ¬ t.type = TokType.rbracket := by simp [hsp]
    have h4 : ¬ t.type = TokType.infixTok := by simp [hsp]
    obtain ⟨st1, hrun1, hops1, hdep1, hcnt1⟩ :=
      spaceLoop_base reg mw st.operators st f rfl hwf (by omega)
    have hlbr1 : countLbr st1.operators = countLbr st.operators := by
      rw [hops1, countLbr_dropWhile]
    have hmem1 : ∀ u ∈ st1.operators, opTok u := by
      intro u hu
      rw [hops1] at hu
      exact hwf u (dropWhile_mem _ _ u hu)
    have hlen1 : st1.operators.length ≤ st.operators.length := by
      rw [hops1]
      exact dropWhile_length_le _ _
    have hnlbr : isLbr t = false := isLbr_false_of_ne t h2
    refine ⟨{ st1 with operators := t :: st1.operators },
      ?_, ?_, by simp; omega, ?_, ?_, ?_⟩
    · simp only [processInput]
      rw [h1]
      simp only [Bool.false_eq_true, if_false]
      rw [if_neg h2, if_neg h3, if_neg h4, if_pos hsp]
      cases hops : st.operators with
      | nil =>
          dsimp only
          rw [hrun1]
      | cons t1 ops1 =>
          have hfn : isFunctionalTy t1.type = false :=
            opTok_not_functional t1 (hwf t1 (by rw [hops]; simp))
          dsimp only
          rw [hfn]
          simp only [Bool.false_eq_true, if_false]
          rw [hrun1]
    · intro u hu
      rcases List.mem_cons.mp hu with rfl | hu
      · exact Or.inl hsp
      · exact hmem1 u hu
    · rw [braceStep_other t _ h2 h3]
      dsimp only
      rw [countLbr_cons_not t _ hnlbr, hlbr1]
    · rw [braceStep_other t _ h2 h3]
      unfold countRQ
      dsimp only
      exact hcnt1 "unmatched right brace" (by decide)
    · unfold countLQ
      dsimp only
      exact hcnt1 "unmatched left brace" (by decide)
  · obtain ⟨op, hop⟩ := Option.isSome_iff_exists.mp hlk
    have h1 : isFunctionalTy t.type = false := by rw [hin]; rfl
    have h2 : ¬ t.type = TokType.lbracket := by simp [hin]
    have h3 : ¬ t.type = TokType.rbracket := by simp [hin]
    obtain ⟨st1, hrun1, ⟨k, hk⟩, hlbr1, hdep1, hcnt1⟩ :=
      infixLoop_base reg mw op st.operators st f rfl hwf (by omega)
    have hmem1 : ∀ u ∈ st1.operators, opTok u := by
      intro u hu
      rw [hk] at hu
      exact hwf u (List.mem_of_mem_drop hu)
    have hlen1 : st1.operators.length ≤ st.operators.length := by
      rw [hk, List.length_drop]
      omega
    have hnlbr : isLbr t = false := isLbr_false_of_ne t h2
    refine ⟨{ st1 with operators := t :: st1.operators },
      ?_, ?_, by simp; omega, ?_, ?_, ?_⟩
    · simp only [processInput]
      rw [h1]
      simp only [Bool.false_eq_true, if_false]
      rw [if_neg h2, if_neg h3, if_pos hin, hop]
      dsimp only
      rw [hrun1]
    · intro u hu
      rcases List.mem_cons.mp hu with rfl | hu
      · exact Or.inr (Or.inl ⟨hin, hlk⟩)
      · exact hmem1 u hu
    · rw [braceStep_other t _ h2 h3]
      dsimp only
      rw [countLbr_cons_not t _ hnlbr, hlbr1]
    · rw [braceStep_other t _ h2 h3]
      unfold countRQ
      dsimp only
      exact hcnt1 "unmatched right brace" (by decide)
    · unfold countLQ
      dsimp only
      exact hcnt1 "unmatched left brace" (by decide)
  · have h1 : isFunctionalTy t.type = false := by rw [hlb]; rfl
    refine ⟨{ st with operators := t :: st.operators, depth := st.depth + 1 },
      ?_, ?_, by simp, ?_, ?_, rfl⟩
    · simp only [processInput]
      rw [h1]
      simp only [Bool.false_eq_true, if_false]
      rw [if_pos hlb, if_neg (by rw [hv]; decide)]
    · intro u hu
      rcases List.mem_cons.mp hu with rfl | hu
      · exact Or.inr (Or.inr ⟨hlb, hv⟩)
      · exact hwf u hu
    · rw [braceStep_lbr t _ hlb]
      dsimp only
      rw [countLbr_cons_lbr t _ (by rw [isLbr, hlb])]
    · rw [braceStep_lbr t _ hlb]
      rfl
  · have h1 : isFunctionalTy t.type = false := by rw [hrb]; rfl
    have h2 : ¬ t.type = TokType.lbracket := by simp [hrb]
    obtain ⟨st1, hrun1, hzero, hpos⟩ :=
      rbracketLoop_base reg mw t st.operators st f rfl hwf (by omega)
    by_cases hc : countLbr st.operators = 0
    · obtain ⟨ho, hr, hq⟩ := hzero hc
      refine ⟨st1, ?_, ?_, ?_, ?_, ?_, ?_⟩
      · simp only [processInput]
        rw [h1]
        simp only [Bool.false_eq_true, if_false]
        rw [if_neg h2, if_pos hrb, if_neg (by rw [hv]; decide), hrun1]
        dsimp only
        rw [ho]
      · intro u hu
        rw [ho] at hu
        exact absurd hu (by simp)
      · rw [ho]
        simp
      · rw [braceStep_rbr t _ hrb]
        dsimp only
        rw [if_neg (by omega), ho]
        dsimp only
        rw [hc]
        rfl
      · rw [braceStep_rbr t _ hrb]
        dsimp only
        rw [if_neg (by omega)]
        exact hr
      · unfold countLQ
        exact hq "unmatched left brace" (by decide) (by decide)
    · obtain ⟨⟨k, hk⟩, hc1, hq⟩ := hpos (Nat.pos_of_ne_zero hc)
      have hmem1 : ∀ u ∈ st1.operators, opTok u := by
        intro u hu
        rw [hk] at hu
        exact hwf u (List.mem_of_mem_drop hu)
      have hlen1 : st1.operators.length ≤ st.operators.length := by
        rw [hk, List.length_drop]
        omega
      refine ⟨st1, ?_, hmem1, by omega, ?_, ?_, ?_⟩
      · simp only [processInput]
        rw [h1]
        simp only [Bool.false_eq_true, if_false]
        rw [if_neg h2, if_pos hrb, if_neg (by rw [hv]; decide), hrun1]
        dsimp only
        cases hops1 : st1.operators with
        | nil => rfl
        | cons t1 ops1 =>
            have hfn : isFunctionalTy t1.type = false :=
              opTok_not_functional t1 (hmem1 t1 (by rw [hops1]; simp))
            dsimp only
            rw [hfn]
            simp only [Bool.false_eq_true, if_false]
      · rw [braceStep_rbr t _ hrb]
        dsimp only
        rw [if_pos (by omega)]
        dsimp only
        omega
      · rw [braceStep_rbr t _ hrb]
        dsimp only
        rw [if_pos (by omega)]
        exact hq "unmatched right brace" (by decide)
      · unfold countLQ
        exact hq "unmatched left brace" (by decide)

/-- The token loop of `layout` over a base stream: no exception, and the pair
(lbrackets on the stack, "unmatched right brace" quirks) is the bracket
balance of the stream while no "unmatched left brace" quirk is added. -/
theorem processItems_base (reg : Reg) (mw : Int) :
    ∀ (toks : List Token) (st : St) (fuel : Nat),
      (∀ t ∈ toks, baseTok t) → (∀ u ∈ st.operators, opTok u) →
      2 * toks.length + st.operators.length + 2 ≤ fuel →
      ∃ st', processItems reg mw fuel (toks.map Sum.inl) st = (st', none) ∧
        (∀ u ∈ st'.operators, opTok u) ∧
        st'.operators.length ≤ st.operators.length + toks.length ∧
        countLbr st'.operators =
          (braceBal toks (countLbr st.operators, countRQ st)).1 ∧
        countRQ st' = (braceBal toks (countLbr st.operators, countRQ st)).2 ∧
        countLQ st' = countLQ st := by
  intro toks
  induction toks with
  | nil =>
      intro st fuel hb hwf hf
      obtain ⟨f, rfl⟩ : ∃ f, fuel = f + 1 := ⟨fuel - 1, by omega⟩
      exact ⟨st, by simp only [List.map_nil, processItems], hwf,
        by simp, rfl, rfl, rfl⟩
  | cons t rest ih =>
      intro st fuel hb hwf hf
      obtain ⟨f, rfl⟩ : ∃ f, fuel = f + 1 := ⟨fuel - 1, by omega⟩
      obtain ⟨st1, hrun1, hmem1, hlen1, hlbr1, hrq1, hlq1⟩ :=
        processInput_base reg mw t st f (hb t (by simp)) hwf
          (by simp at hf; omega)
      obtain ⟨st2, hrun2, hmem2, hlen2, hlbr2, hrq2, hlq2⟩ :=
        ih st1 f (fun u hu => hb u (by simp [hu])) hmem1
          (by simp at hf ⊢; omega)
      have hpair : (countLbr st1.operators, countRQ st1) =
          braceStep t (countLbr st.operators, countRQ st) := by
        rw [hlbr1, hrq1]
      refine ⟨st2, ?_, hmem2, by simp; omega, ?_, ?_, ?_⟩
      · simp only [List.map_cons, processItems]
        rw [hrun1]
        exact hrun2
      · rw [hlbr2]
        unfold braceBal
        rw [List.foldl_cons, ← hpair]
      · rw [hrq2]
        unfold braceBal
        rw [List.foldl_cons, ← hpair]
      · rw [hlq2, hlq1]

/-- C9 (amended): over a token stream of the base grammar — literals, escapes,
spaces, registered infix symbols, and the brackets `{`/`}`, with no
function/macro tokens — `layout` returns normally and the produced quirk list
has exactly one "unmatched left brace" quirk per lbracket never closed and one
"unmatched right brace" quirk per rbracket with no open lbracket, the counts
of the standard bracket-matching scan of the stream. -/
theorem unmatched_brace_quirks (reg : Reg) (toks : List Token) (mw : Int)
    (fuel : Nat) (tls : Tls) (hb : ∀ t ∈ toks, baseTok t)
    (hf : 2 * toks.length + 2 ≤ fuel) :
    ∃ tls' q g, layout reg toks mw fuel tls = (tls', Except.ok (q, g)) ∧
      countQuirk "unmatched left brace" q = unmatchedL toks ∧
      countQuirk "unmatched right brace" q = unmatchedR toks := by
  obtain ⟨st1, hrun1, hmem1, hlen1, hlbr1, hrq1, hlq1⟩ :=
    processItems_base reg mw toks
      { depth := 0, output := [], operators := [], quirksRev := []
        mstate := tls.mstate, fstate := tls.fstate } fuel hb
      (by intro u hu; exact absurd hu (by simp)) (by simp; omega)
  have hL : countLbr st1.operators = unmatchedL toks := hlbr1
  have hR : countRQ st1 = unmatchedR toks := hrq1
  have hlq1' : countLQ st1 = 0 := hlq1
  have hlen1' : st1.operators.length ≤ toks.length := by simpa using hlen1
  obtain ⟨st2, hrun2, ho2, hlq2, hq2⟩ :=
    unwindLoop_base reg mw st1.operators st1 fuel rfl hmem1 (by omega)
  have hLQfinal : countLQ st2 = unmatchedL toks := by
    rw [hlq2, hlq1', hL]
    omega
  have hRQfinal : countRQ st2 = unmatchedR toks := by
    unfold countRQ
    rw [hq2 "unmatched right brace" (by decide) (by decide)]
    exact hR
  refine ⟨⟨st2.mstate, st2.fstate⟩, (layoutFinish st2).1, (layoutFinish st2).2,
    ?_, ?_, ?_⟩
  · simp only [layout]
    rw [hrun1]
    dsimp only
    rw [hrun2]
  · unfold layoutFinish
    dsimp only
    split_ifs with hout
    · dsimp only
      rw [countQuirk_reverse, countQuirk_cons_ne _ _ _ (by decide)]
      exact hLQfinal
    · rw [countQuirk_reverse]
      exact hLQfinal
  · unfold layoutFinish
    dsimp only
    split_ifs with hout
    · dsimp only
      rw [countQuirk_reverse, countQuirk_cons_ne _ _ _ (by decide)]
      exact hRQfinal
    · rw [countQuirk_reverse]
      exact hRQfinal

theorem unmatched_brace_quirks_witness :
    (∀ t ∈ [(⟨TokType.lbracket, none, none, mkStr "\x7b"⟩ : Token),
        ⟨TokType.rbracket, none, none, mkStr "\x7d"⟩,
        ⟨TokType.rbracket, none, none, mkStr "\x7d"⟩], baseTok t) ∧
    2 * 3 + 2 ≤ 10 ∧
    ∃ tls' q g,
      layout builtinReg
        [⟨TokType.lbracket, none, none, mkStr "\x7b"⟩,
          ⟨TokType.rbracket, none, none, mkStr "\x7d"⟩,
          ⟨TokType.rbracket, none, none, mkStr "\x7d"⟩] 20 10 Tls.init =
        (tls', Except.ok (q, g)) ∧
      countQuirk "unmatched left brace" q =
        unmatchedL
          [⟨TokType.lbracket, none, none, mkStr "\x7b"⟩,
            ⟨TokType.rbracket, none, none, mkStr "\x7d"⟩,
            ⟨TokType.rbracket, none, none, mkStr "\x7d"⟩] ∧
      countQuirk "unmatched right brace" q =
        unmatchedR
          [⟨TokType.lbracket, none, none, mkStr "\x7b"⟩,
            ⟨TokType.rbracket, none, none, mkStr "\x7d"⟩,
            ⟨TokType.rbracket, none, none, mkStr "\x7d"⟩] :=
  ⟨by decide, by decide,
    unmatched_brace_quirks builtinReg
      [⟨TokType.lbracket, none, none, mkStr "\x7b"⟩,
        ⟨TokType.rbracket, none, none, mkStr "\x7d"⟩,
        ⟨TokType.rbracket, none, none, mkStr "\x7d"⟩] 20 10 Tls.init
      (by decide) (by decide)⟩

/-!
## C8 (amended): `^` stacks the right operand directly above the left one
-/

/-- A plain single character: an untested Unicode category, none of the markup
syntax characters, not `#`, not ZWSP, and neither CJK nor kana — exactly the
characters that tokenize as part of a literal run and normalize to a literal
token. -/
def plainChar (mc : MChar) : Prop :=
  mc.cat = UCat.other ∧ mc.c ≠ '\\' ∧ mc.c ≠ '{' ∧ mc.c ≠ '}' ∧
  mc.c ≠ '^' ∧ mc.c ≠ '_' ∧ mc.c ≠ '#' ∧ mc.c ≠ zwspChar ∧
  is_cjk mc = false ∧ is_kana mc = false

instance (mc : MChar) : Decidable (plainChar mc) := by
  unfold plainChar; infer_instance

theorem plainChar_flags (mc : MChar) (h : plainChar mc) :
    is_breaking_space mc = false ∧ is_breaking_hyphen mc = false ∧
    is_inner_punctuation mc = false ∧ is_starting_punctuation mc = false ∧
    is_ending_punctuation mc = false ∧ is_modifier mc = false ∧
    is_syntax_delim mc = false := by
  obtain ⟨hcat, h1, h2, h3, h4, h5, h6, h7, h8, h9⟩ := h
  refine ⟨?_, ?_, ?_, ?_, ?_, ?_, ?_⟩ <;>
    simp [is_breaking_space, is_breaking_hyphen, is_inner_punctuation,
      is_starting_punctuation, is_ending_punctuation, is_modifier,
      is_syntax_delim, hcat, h1, h2, h3, h4, h5, h7]

theorem caret_boundaries (a b : MChar) (ha : plainChar a) (hb : plainChar b) :
    token_boundaries [a, classify '^', b] 0 = true ∧
    token_boundaries [a, classify '^', b] 1 = true ∧
    token_boundaries [a, classify '^', b] 2 = false := by
  obtain ⟨hbsa, hbha, hipa, hspa, hepa, hma, hsda⟩ := plainChar_flags a ha
  obtain ⟨hbsb, hbhb, hipb, hspb, hepb, hmb, hsdb⟩ := plainChar_flags b hb
  have hacjk : is_cjk a = false := ha.2.2.2.2.2.2.2.2.1
  have hakana : is_kana a = false := ha.2.2.2.2.2.2.2.2.2
  have hbcjk : is_cjk b = false := hb.2.2.2.2.2.2.2.2.1
  have hbkana : is_kana b = false := hb.2.2.2.2.2.2.2.2.2
  have hahash : a.c ≠ '#' := ha.2.2.2.2.2.2.1
  have hbhash : b.c ≠ '#' := hb.2.2.2.2.2.2.1
  have hk1 : is_syntax_delim (classify '^') = true := by decide
  have hk2 : ¬ (classify '^').c = '#' := by decide
  refine ⟨?_, ?_, ?_⟩ <;>
    simp [token_boundaries, line_break_opportunities, Mask.collect, Mask.or,
      Mask.and, Mask.inv, Mask.shl1, hbsa, hbha, hipa, hspa, hepa,
      hma, hsda, hbsb, hbhb, hipb, hspb, hepb, hmb, hsdb, hacjk, hakana,
      hbcjk, hbkana, hahash, hbhash, hk1, hk2]

theorem caret_stream (a b : MChar) (ha : plainChar a) (hb : plainChar b) :
    normalize builtinReg (tokenize [a, classify '^', b]) =
      [⟨TokType.literal, none, some (0, 0), [a]⟩,
        ⟨TokType.infixTok, none, some (1, 1), [classify '^']⟩,
        ⟨TokType.literal, none, some (2, 3), [b]⟩] := by
  obtain ⟨h0, h1, h2⟩ := caret_boundaries a b ha hb
  have htok : tokenize [a, classify '^', b] =
      [⟨TokType.literal, none, some (0, 0), [a]⟩,
        ⟨TokType.literal, none, some (1, 1), [classify '^']⟩,
        ⟨TokType.literal, none, some (2, 3), [b]⟩] := by
    simp [tokenize, tokenizeAux, h0, h1, h2]
  rw [htok]
  have hbsa : is_breaking_space a = false := (plainChar_flags a ha).1
  have hbsb : is_breaking_space b = false := (plainChar_flags b hb).1
  have hIa : infixLookup [a] = none := by
    simp [infixLookup, Str.chars, ha.2.2.2.2.1, ha.2.2.2.2.2.1]
  have hIb : infixLookup [b] = none := by
    simp [infixLookup, Str.chars, hb.2.2.2.2.1, hb.2.2.2.2.2.1]
  have hIk : infixLookup [classify '^'] =
      some ⟨10, Assoc.left, infix_text_over⟩ := rfl
  have hbsk : is_breaking_space (classify '^') = false := by decide
  have hkc : (classify '^').c = '^' := rfl
  simp [normalize, normalizeAux, Str.chars, Token.with_type, isValueLike,
    hIa, hIb, hIk, hbsa, hbsb, hbsk, hkc,
    ha.2.1, ha.2.2.1, ha.2.2.2.1,
    hb.2.1, hb.2.2.1, hb.2.2.2.1]

theorem caret_run (a b : MChar) (mw : Int) (f : Nat) :
    layout builtinReg
      [⟨TokType.literal, none, some (0, 0), [a]⟩,
        ⟨TokType.infixTok, none, some (1, 1), [classify '^']⟩,
        ⟨TokType.literal, none, some (2, 3), [b]⟩] mw (f + 9) Tls.init =
      (Tls.init, Except.ok ([],
        TextGroup.empty.concat
          (infix_text_over (TextGroup.from_str [a]) (TextGroup.from_str [b]))
          (some 0)
          (some (-(infix_text_over (TextGroup.from_str [a])
              (TextGroup.from_str [b])).box.height)) none)) := by
  have hIk : infixLookup [classify '^'] =
      some ⟨10, Assoc.left, infix_text_over⟩ := rfl
  simp [layout, processItems, processInput, infixLoop, unwindLoop,
    evaluateSimple, layoutFinish, Tls.init, isFunctionalTy, hIk]

theorem char_width_nonneg (mc : MChar) : 0 ≤ char_width mc := by
  unfold char_width
  split_ifs <;> norm_num

theorem unicode_width_single (mc : MChar) :
    unicode_width [mc] = char_width mc := by
  simp [unicode_width]

theorem caret_final_height (a b : MChar) :
    (TextGroup.empty.concat
      (infix_text_over (TextGroup.from_str [a]) (TextGroup.from_str [b]))
      (some 0)
      (some (-(infix_text_over (TextGroup.from_str [a])
          (TextGroup.from_str [b])).box.height)) none).box.height = 2 := by
  simp [TextGroup.concat, infix_text_over, TextGroup.from_str,
    TextBox.from_str, TextGroup.empty, TextBox.empty]

theorem caret_final_width (a b : MChar) :
    (TextGroup.empty.concat
      (infix_text_over (TextGroup.from_str [a]) (TextGroup.from_str [b]))
      (some 0)
      (some (-(infix_text_over (TextGroup.from_str [a])
          (TextGroup.from_str [b])).box.height)) none).box.width =
      max (unicode_width [a]) (unicode_width [b]) := by
  have hwa : 0 ≤ unicode_width [a] := by
    rw [unicode_width_single]; exact char_width_nonneg a
  have hwb : 0 ≤ unicode_width [b] := by
    rw [unicode_width_single]; exact char_width_nonneg b
  have h1 := Int.fdiv_add_fmod
    (max (unicode_width [a]) (unicode_width [b]) - unicode_width [a]) 2
  have h2 := Int.fdiv_add_fmod
    (max (unicode_width [a]) (unicode_width [b]) - unicode_width [b]) 2
  have h3 := Int.fmod_nonneg'
    (max (unicode_width [a]) (unicode_width [b]) - unicode_width [a])
    (show (0:Int) < 2 by norm_num)
  have h4 := Int.fmod_nonneg'
    (max (unicode_width [a]) (unicode_width [b]) - unicode_width [b])
    (show (0:Int) < 2 by norm_num)
  have h5 := Int.fmod_lt_of_pos
    (max (unicode_width [a]) (unicode_width [b]) - unicode_width [a])
    (show (0:Int) < 2 by norm_num)
  have h6 := Int.fmod_lt_of_pos
    (max (unicode_width [a]) (unicode_width [b]) - unicode_width [b])
    (show (0:Int) < 2 by norm_num)
  simp [TextGroup.concat, infix_text_over, TextGroup.from_str,
    TextBox.from_str, TextGroup.empty, TextBox.empty]
  omega

theorem caret_final_items (a b : MChar) :
    ∃ xa xb : Int,
      (TextGroup.empty.concat
        (infix_text_over (TextGroup.from_str [a]) (TextGroup.from_str [b]))
        (some 0)
        (some (-(infix_text_over (TextGroup.from_str [a])
            (TextGroup.from_str [b])).box.height)) none).items =
        [⟨xa, 0, some [a]⟩, ⟨xb, 1, some [b]⟩] := by
  simp [TextGroup.concat, infix_text_over, TextGroup.from_str,
    TextBox.from_str, TextGroup.empty, TextBox.empty, Text.from_str]

/-- C8 (amended): for plain single-character literals `a` and `b`, evaluating
the source `a^b` through the full pipeline yields zero quirks and a group of
height 2 whose width is the maximum of the two character widths, in which the
*right* operand `b` is stacked directly above `a`: the items sit in adjacent
rows and the renderer draws `b` exactly one row above `a` (the claim's stated
orientation — `a` above `b` — is the reverse of what `^` produces). -/
theorem caret_stacks_over (a b : MChar) (ha : plainChar a) (hb : plainChar b)
    (mw : Int) (f : Nat) :
    ∃ g : TextGroup,
      layoutSource builtinReg [a, classify '^', b] mw (f + 9) Tls.init =
        (Tls.init, Except.ok ([], g)) ∧
      g.box.height = 2 ∧
      g.box.width = max (unicode_width [a]) (unicode_width [b]) ∧
      ∃ xa xb : Int,
        g.items = [⟨xa, 0, some [a]⟩, ⟨xb, 1, some [b]⟩] ∧
        renderRow ⟨xb, 1, some [b]⟩ + 1 = renderRow ⟨xa, 0, some [a]⟩ := by
  obtain ⟨xa, xb, hitems⟩ := caret_final_items a b
  refine ⟨_, ?_, caret_final_height a b, caret_final_width a b,
    xa, xb, hitems, ?_⟩
  · rw [layoutSource, caret_stream a b ha hb]
    exact caret_run a b mw f
  · simp [renderRow]

theorem caret_stacks_over_witness :
    plainChar (classify 'a') ∧ plainChar (classify 'b') ∧
    ∃ g : TextGroup,
      layoutSource builtinReg [classify 'a', classify '^', classify 'b']
          100 (6 + 9) Tls.init =
        (Tls.init, Except.ok ([], g)) ∧
      g.box.height = 2 ∧
      g.box.width =
        max (unicode_width [classify 'a']) (unicode_width [classify 'b']) ∧
      ∃ xa xb : Int,
        g.items = [⟨xa, 0, some [classify 'a']⟩,
          ⟨xb, 1, some [classify 'b']⟩] ∧
        renderRow ⟨xb, 1, some [classify 'b']⟩ + 1 =
          renderRow ⟨xa, 0, some [classify 'a']⟩ :=
  ⟨by decide, by decide,
    caret_stacks_over (classify 'a') (classify 'b') (by decide) (by decide)
      100 6⟩

end Flashcards
